import Mathlib

/-!
# Verification of the semchunk splitting/merging engine

A shallow embedding, in Lean 4, of `src/semchunk/semchunk.py`:

* `split_text`   embeds `_split_text` (the splitter selector);
* `merge_splits` embeds `merge_splits` (the greedy merge engine with its
  adaptive binary search);
* `chunk`        embeds the recursive orchestrator `chunk`.

Conventions of the embedding:

* Python strings are Lean `String`s; `len` is `String.length` /
  `List.length` on the underlying character list.
* The floating-point running estimate `average` is embedded twice, in two
  companion models.  `mergeLoop`/`merge_splits`/`chunk` compute it in exact
  rational arithmetic (`ℚ`); `mergeLoopF`/`merge_splitsF`/`chunkF` compute
  it in IEEE-754 binary64 arithmetic, through `roundD` (correct rounding of
  a rational to the nearest double, ties to even, with subnormals; `none`
  embeds the `OverflowError` CPython raises when an `int`-to-`float`
  conversion or an `int` true division lands beyond the double range, and
  a float product that overflows to `+inf` sends the bisection probe to
  the end of the slice, as an infinite bound does).  CPython's doubles can
  silently underflow the average to `0.0` — e.g. `3 / 10**330 == 0.0` —
  which redirects the probe to the empty prefix, collapses the window at
  `low = 0` and makes `merge_splits` return `(-1, splitter.join(
  splits[:-1]))` with a merged text that was never probed against the
  budget.  The float model exhibits this divergence (the C1 and C6
  theorems); the exact model provably cannot, so the theorems that
  quantify over all counters are theorems about the exact-arithmetic
  model.  Every concrete evaluation used in a counterexample or witness
  takes identical branches in both models, checked by the agreement
  lemmas on `merge_splitsF` and `chunkF`.
* Python exceptions (the `ZeroDivisionError` in `merge_splits`, the
  `IndexError` reachable through `chunks[-1]`, and `RecursionError`) are
  embedded as `none`; `chunk` takes a fuel argument for the recursion
  depth, since the source recursion is not total.
* `functools.cache` applied to a pure function is embedded as the function
  itself (`memoised`).
-/

/- The library marks the arithmetic of `Rat` irreducible purely as an
elaboration performance guard. The witnesses below evaluate the engine on
concrete inputs inside the kernel, which needs these definitions to
unfold. The two options likewise only lift elaboration-performance guards:
the binary64 traces below manipulate numerals near the double range
(exponents up to 4096). -/
set_option allowUnsafeReducibility true in
attribute [semireducible] Rat.mul Rat.inv Rat.add Rat.sub Rat.div Rat.neg

set_option maxRecDepth 8000
set_option exponentiation.threshold 10000

/-- The empty string (used so that string literals never directly follow an
identifier in applications). -/
def strE : String := ""

/-- Characters matched by the regex class in r-string bracket r-n plus
(newline and carriage return), used by the first tier of `_split_text`. -/
def nlRun (c : Char) : Bool := c == '\n' || c == '\r'

/-- Tab characters, used by the second tier of `_split_text`. -/
def tabRun (c : Char) : Bool := c == '\t'

/-- Python's whitespace class for `str` regexes: the characters matched by
the pattern backslash-s under `re` in unicode mode. -/
def pyWhitespace (c : Char) : Bool :=
  decide ((9 ≤ c.toNat ∧ c.toNat ≤ 13) ∨ (28 ≤ c.toNat ∧ c.toNat ≤ 32) ∨
    c.toNat = 133 ∨ c.toNat = 160 ∨ c.toNat = 5760 ∨
    (8192 ≤ c.toNat ∧ c.toNat ≤ 8202) ∨ c.toNat = 8232 ∨ c.toNat = 8233 ∨
    c.toNat = 8239 ∨ c.toNat = 8287 ∨ c.toNat = 12288)

/-- The maximal runs of `p`-characters of a character list, in order of
occurrence: the embedding of `re.findall(p + r-plus, text)` for a
single-character-class pattern `p`. -/
def runs (p : Char → Bool) : List Char → List (List Char)
  | [] => []
  | c :: rest =>
    let rs := runs p rest
    if p c then
      match rest with
      | [] => [[c]]
      | d :: _ =>
        if p d then
          match rs with
          | r :: rsTail => (c :: r) :: rsTail
          | [] => [[c]]
        else [c] :: rs
    else rs

/-- Lexicographic comparison of character lists by code point: the order
Python uses to compare `str` values. -/
def listLt : List Char → List Char → Bool
  | _, [] => false
  | [], _ :: _ => true
  | a :: as, b :: bs =>
    if a.toNat < b.toNat then true
    else if b.toNat < a.toNat then false
    else listLt as bs

/-- Python string comparison `a < b` (lexicographic by code point). -/
def strLt (a b : String) : Bool := listLt a.toList b.toList

/-- Python's `max` on a list of strings: the first element of the list that
is lexicographically greatest. Returns the empty string on an empty list
(Python would raise; all uses are guarded). -/
def maxString : List String → String
  | [] => strE
  | x :: xs => xs.foldl (fun a b => if strLt a b then b else a) x

/-- `_NON_WHITESPACE_SEMANTIC_SPLITTERS` from the source, in the same
order: sentence terminators, clause separators, sentence interrupters,
word joiners. Non-ASCII members and the quote characters are written via
their code points. -/
def NON_WHITESPACE_SEMANTIC_SPLITTERS : List Char :=
  ['.', '?', '!', '*',
   ';', ',', '(', ')', '[', ']',
   Char.ofNat 8220, Char.ofNat 8221, Char.ofNat 8216, Char.ofNat 8217,
   Char.ofNat 39, Char.ofNat 34, Char.ofNat 96,
   ':', Char.ofNat 8212, Char.ofNat 8230,
   '/', Char.ofNat 92, Char.ofNat 8211, '&', '-']

/-- Index of the first occurrence of `sep` as a contiguous subsequence of
the list, if any (the scan underlying Python's `str.split`). -/
def subAt (sep : List Char) : List Char → Option ℕ
  | [] => if sep = [] then some 0 else none
  | c :: rest =>
    if sep.isPrefixOf (c :: rest) then some 0
    else (subAt sep rest).map (fun k => k + 1)

/-- Fuelled splitter on character lists: repeatedly cut at the first
occurrence of `sep`. `fuel = l.length` always suffices because each cut
consumes at least one character of a nonempty `sep`. -/
def splitSeqF (sep : List Char) : ℕ → List Char → List (List Char)
  | 0, l => [l]
  | n + 1, l =>
    match subAt sep l with
    | none => [l]
    | some k => l.take k :: splitSeqF sep n (l.drop (k + sep.length))

/-- Python's `text.split(sep)` for a nonempty separator `sep`. -/
def pySplit (sep : String) (t : String) : List String :=
  if sep.toList = [] then [t]
  else (splitSeqF sep.toList t.toList.length t.toList).map (fun l => String.mk l)

/-- Python's `sep.join(pieces)`. -/
def joinS (sep : String) : List String → String
  | [] => strE
  | [x] => x
  | x :: y :: xs => x ++ sep ++ joinS sep (y :: xs)

/-- The splitter selector `_split_text` from the source: pick, in priority
order, the `max` of the newline/carriage-return runs, of the tab runs, or
of the whitespace runs; else the first non-whitespace semantic splitter
present; else fall back to single characters with an empty splitter.
Returns `(splitter, splitter_is_whitespace, splits)`. -/
def split_text (text : String) : String × Bool × List String :=
  let cs := text.toList
  if cs.any nlRun then
    let sp := maxString ((runs nlRun cs).map (fun r => String.mk r))
    (sp, true, pySplit sp text)
  else if cs.any tabRun then
    let sp := maxString ((runs tabRun cs).map (fun r => String.mk r))
    (sp, true, pySplit sp text)
  else if cs.any pyWhitespace then
    let sp := maxString ((runs pyWhitespace cs).map (fun r => String.mk r))
    (sp, true, pySplit sp text)
  else
    match NON_WHITESPACE_SEMANTIC_SPLITTERS.find? (fun c => cs.contains c) with
    | some c => (String.mk [c], false, pySplit (String.mk [c]) text)
    | none => (strE, true, cs.map (fun c => String.mk [c]))

/-- `list(accumulate([len(split) for split in splits], initial = 0))` with
its last element appended once more, exactly as `merge_splits` builds
`cumulative_lengths`; entries are rationals because they get compared with
the rational `chunk_size * average`. -/
def cumLengths (splits : List String) : List ℚ :=
  ((List.range (splits.length + 1)).map
    (fun m => (((splits.take m).map String.length).sum : ℚ))) ++
  [(((splits.map String.length).sum : ℚ))]

/-- The loop of Python's `bisect_left` (pure binary search by `<` on a
list, probing `a[(lo+hi)/2]`). Fuelled; `fuel = hi - lo` suffices. -/
def bisectLoop (a : List ℚ) (x : ℚ) : ℕ → ℕ → ℕ → ℕ
  | 0, lo, _ => lo
  | fuel + 1, lo, hi =>
    if lo < hi then
      let mid := (lo + hi) / 2
      if a.getD mid 0 < x then bisectLoop a x fuel (mid + 1) hi
      else bisectLoop a x fuel lo mid
    else lo

/-- Python's `bisect_left(a, x)`. -/
def bisect_left (a : List ℚ) (x : ℚ) : ℕ := bisectLoop a x a.length 0 a.length

/-- The `while low < high` loop of `merge_splits`, with the running
`average` computed in exact rational arithmetic (see `mergeLoopF` for the
same loop under binary64 arithmetic). Returns the final value of `low`, or
`none` on the division by zero that Python raises when
`cumulative_lengths[midpoint]` is nonzero while `tokens` is zero. Fuelled;
the initial fuel `len(splits) + 1 = high - low` always suffices because
`high - low` shrinks at every iteration. -/
def mergeLoop (splits : List String) (chunk_size : ℕ) (splitter : String)
    (tc : String → ℕ) (cum : List ℚ) : ℕ → ℕ → ℕ → ℚ → Option ℕ
  | 0, low, high, _ => if low < high then none else some low
  | fuel + 1, low, high, average =>
    if low < high then
      let islice := (cum.drop low).take (high + 1 - low)
      let i := bisect_left islice ((chunk_size : ℚ) * average)
      let midpoint := min (i + low) (high - 1)
      let tokens := tc (joinS splitter (splits.take midpoint))
      let cmid := cum.getD midpoint 0
      if cmid ≠ 0 ∧ tokens = 0 then none
      else
        let avg2 := if cmid ≠ 0 then cmid / (tokens : ℚ) else average
        if chunk_size < tokens then
          mergeLoop splits chunk_size splitter tc cum fuel low midpoint avg2
        else
          mergeLoop splits chunk_size splitter tc cum fuel (midpoint + 1) high avg2
    else some low

/-- `merge_splits` from the source: run the adaptive binary search and
return `(low - 1, splitter.join(splits[:low - 1]))`. The Python slice
`splits[:low - 1]` is `take (low - 1)` for `low ≥ 1` and `dropLast` (the
slice `[:-1]`) when `low = 0`. `none` is the `ZeroDivisionError`. -/
def merge_splits (splits : List String) (chunk_size : ℕ) (splitter : String)
    (tc : String → ℕ) : Option (ℤ × String) :=
  match mergeLoop splits chunk_size splitter tc (cumLengths splits)
      (splits.length + 1) 0 (splits.length + 1) (1 / 5) with
  | none => none
  | some low =>
    some ((low : ℤ) - 1,
      if low = 0 then joinS splitter splits.dropLast
      else joinS splitter (splits.take (low - 1)))

/-- `functools.cache` applied to a pure token counter computes the same
function; the memoised wrapper is embedded as the counter itself. -/
def memoised (tc : String → ℕ) : String → ℕ := tc

/-- One iteration of the `for i, split in enumerate(splits)` loop body of
`chunk`. State: `(chunks, skips)`. `rec` performs the recursive call at
depth + 1. `none` embeds an uncaught exception (from `merge_splits`, from
a failing recursive call, or the `IndexError` of `chunks[-1]` on an empty
`chunks`). -/
def chunkStep (rec : String → Option (List String)) (chunk_size : ℕ)
    (tc : String → ℕ) (sp : String) (spIsWhite : Bool) (splits : List String)
    (i : ℕ) (acc : List String × List ℕ) : Option (List String × List ℕ) :=
  if acc.2.contains i then some acc
  else
    let split := splits.getD i strE
    let merged : Option (List String × List ℕ) :=
      if chunk_size < tc split then
        match rec split with
        | none => none
        | some sub => some (acc.1 ++ sub, acc.2)
      else
        match merge_splits (splits.drop i) chunk_size sp tc with
        | none => none
        | some (fin, nc) =>
          some (acc.1 ++ [nc], acc.2 ++ List.range' (i + 1) (fin - 1).toNat)
    match merged with
    | none => none
    | some acc2 =>
      if spIsWhite = false ∧
          ¬(i = splits.length - 1 ∨
            (List.range' (i + 1) (splits.length - (i + 1))).all
              (fun j => acc2.2.contains j) = true) then
        match acc2.1.getLast? with
        | none => none
        | some last =>
          if tc (last ++ sp) ≤ chunk_size then
            some (acc2.1.dropLast ++ [last ++ sp], acc2.2)
          else some (acc2.1 ++ [sp], acc2.2)
      else some acc2

/-- The whole `for` loop of `chunk`, iterating `chunkStep` over indices
`i, i + 1, ...` for `n` steps. -/
def chunkLoop (rec : String → Option (List String)) (chunk_size : ℕ)
    (tc : String → ℕ) (sp : String) (spIsWhite : Bool) (splits : List String) :
    ℕ → ℕ → List String × List ℕ → Option (List String × List ℕ)
  | 0, _, acc => some acc
  | n + 1, i, acc =>
    match chunkStep rec chunk_size tc sp spIsWhite splits i acc with
    | none => none
    | some acc2 => chunkLoop rec chunk_size tc sp spIsWhite splits n (i + 1) acc2

/-- The recursive orchestrator `chunk` from the source, fuelled on the
recursion depth. At depth 0 the token counter is replaced by its memoised
wrapper when `memoize` is set, and empty chunks are filtered from the
result; `none` embeds a Python exception (including `RecursionError`,
i.e. fuel exhaustion). -/
def chunkRec : ℕ → ℕ → (String → ℕ) → Bool → ℕ → String → Option (List String)
  | 0, _, _, _, _, _ => none
  | fuel + 1, chunk_size, tc, memoize, depth, text =>
    let tc2 := if depth = 0 ∧ memoize = true then memoised tc else tc
    let st := split_text text
    match chunkLoop (fun t => chunkRec fuel chunk_size tc2 memoize (depth + 1) t)
        chunk_size tc2 st.1 st.2.1 st.2.2 st.2.2.length 0 ([], []) with
    | none => none
    | some acc =>
      some (if depth = 0 then acc.1.filter (fun c => !(c == strE)) else acc.1)

/-- The public entry point `chunk(text, chunk_size, token_counter, memoize)`
of the library, with explicit fuel bounding the recursion depth. -/
def chunk (fuel : ℕ) (text : String) (chunk_size : ℕ)
    (token_counter : String → ℕ) (memoize : Bool) : Option (List String) :=
  chunkRec fuel chunk_size token_counter memoize 0 text

/-- Concatenation of a list of strings (used to state that the chunks of a
whitespace-free text reassemble it exactly). -/
def concatS : List String → String
  | [] => strE
  | x :: xs => x ++ concatS xs

/-- `SeqSub chunks t`: the chunks occur in `t` in order, as pairwise
disjoint contiguous substrings read left to right. -/
def SeqSub : List String → String → Prop
  | [], _ => True
  | c :: rest, t => ∃ p r : String, t = p ++ c ++ r ∧ SeqSub rest r

/-! ## The binary64 companion model

CPython computes `average` in IEEE-754 double precision. The definitions
below replay `merge_splits` and `chunk` under that arithmetic: `roundD`
is correct rounding of an exact rational to the nearest binary64 value
(round to nearest, ties to even, gradual underflow through subnormals,
`none` for the values on which CPython raises `OverflowError`). They are
used to exhibit, inside the model, program runs in which the double
rounding changes the result of the engine. -/

/-- One step of a binary logarithm: if `2 ^ s` divides into the running
value, shift it down by `s` bits and record `s`. -/
def log2Step (p : ℕ × ℕ) (s : ℕ) : ℕ × ℕ :=
  if 2 ^ s ≤ p.1 then (p.1 / 2 ^ s, p.2 + s) else p

/-- Exact floor of the binary logarithm of a value below `2 ^ 64`, by six
unrolled halving steps. -/
def log2Word (p : ℕ × ℕ) : ℕ × ℕ :=
  log2Step (log2Step (log2Step (log2Step (log2Step (log2Step
    p 32) 16) 8) 4) 2) 1

/-- Strip blocks of `s` bits while counting them (at most `fuel` times). -/
def log2Blocks : ℕ → ℕ → ℕ × ℕ → ℕ × ℕ
  | 0, _, p => p
  | f + 1, s, p =>
    if 2 ^ s ≤ p.1 then log2Blocks f s (p.1 / 2 ^ s, p.2 + s) else p

/-- `⌊log₂ n⌋` for positive `n`, exact for every integer of fewer than
`2 ^ 18` bits (the doubling scheme strips 64 blocks of 4096 bits, then 64
blocks of 64 bits, then finishes exactly; every quantity arising in the
binary64 model is thousands of orders of magnitude below the bound). -/
def natLog2 (n : ℕ) : ℕ :=
  (log2Word (log2Blocks 64 64 (log2Blocks 64 4096 (n, 0)))).2

/-- `2 ^ k` as a rational, for an integer exponent `k`. -/
def pow2z (k : ℤ) : ℚ :=
  if 0 ≤ k then ((2 ^ k.toNat : ℕ) : ℚ) else 1 / ((2 ^ (-k).toNat : ℕ) : ℚ)

/-- `⌊log₂ q⌋` of a positive rational: the bit lengths of numerator and
denominator bracket it to two candidates, settled by one comparison. -/
def floorLog2Q (q : ℚ) : ℤ :=
  let e : ℤ := (natLog2 q.num.natAbs : ℤ) - (natLog2 q.den : ℤ)
  if pow2z e ≤ q then e else e - 1

/-- Round a rational to the nearest integer, ties to even. -/
def rhe (q : ℚ) : ℤ :=
  let n := ⌊q⌋
  let f := q - (n : ℚ)
  if f < 1 / 2 then n
  else if 1 / 2 < f then n + 1
  else if n % 2 = 0 then n else n + 1

/-- Round a positive rational to the nearest IEEE-754 binary64 value:
scale into the 53-bit significand range (clamped at the subnormal scale
`2 ^ -1074`), round the significand to nearest-even, and fail (`none`) on
the values at or beyond `2 ^ 1024`, where CPython raises
`OverflowError`. -/
def roundDPos (q : ℚ) : Option ℚ :=
  let e := floorLog2Q q
  let k : ℤ := max (e - 52) (-1074)
  let m := rhe (q / pow2z k)
  let r := (m : ℚ) * pow2z k
  if pow2z 1024 ≤ r then none else some r

/-- Correct rounding of an exact rational to the nearest binary64 value
(validated below against CPython on the constants of the engine: `0.2`,
products, quotients, the subnormal range and the overflow threshold). -/
def roundD (q : ℚ) : Option ℚ :=
  if q = 0 then some 0
  else if 0 < q then roundDPos q
  else (roundDPos (-q)).map (fun x => -x)

/-- The `while low < high` loop of `merge_splits` under binary64
arithmetic, exactly as CPython executes it: `chunk_size` is converted to
a double (`OverflowError`, i.e. `none`, past the double range), the
product `chunk_size * average` is rounded once (a product that overflows
to `+inf` makes `bisect_left` return the slice length, every finite entry
comparing below an infinite bound), the comparisons of the integer
cumulative lengths against the double bound are exact (as in CPython),
and the updated average `cumulative_lengths[midpoint] / tokens` is the
correctly rounded double of the integer quotient (`OverflowError` as
`none` when it lands beyond the double range; the division by zero is the
same guard as in the exact loop). -/
def mergeLoopF (splits : List String) (chunk_size : ℕ) (splitter : String)
    (tc : String → ℕ) (cum : List ℚ) : ℕ → ℕ → ℕ → ℚ → Option ℕ
  | 0, low, high, _ => if low < high then none else some low
  | fuel + 1, low, high, average =>
    if low < high then
      match roundD (chunk_size : ℚ) with
      | none => none
      | some csf =>
        let islice := (cum.drop low).take (high + 1 - low)
        let i := match roundD (csf * average) with
          | some x => bisect_left islice x
          | none => islice.length
        let midpoint := min (i + low) (high - 1)
        let tokens := tc (joinS splitter (splits.take midpoint))
        let cmid := cum.getD midpoint 0
        if cmid ≠ 0 ∧ tokens = 0 then none
        else
          match (if cmid ≠ 0 then roundD (cmid / (tokens : ℚ))
                 else some average) with
          | none => none
          | some avg2 =>
            if chunk_size < tokens then
              mergeLoopF splits chunk_size splitter tc cum fuel low midpoint
                avg2
            else
              mergeLoopF splits chunk_size splitter tc cum fuel (midpoint + 1)
                high avg2
    else some low

/-- `merge_splits` under binary64 arithmetic. The initial average is the
double nearest `0.2` (the value of the literal `0.2`,
`0x3FC999999999999A`, i.e. `3602879701896397 * 2 ^ -54`). -/
def merge_splitsF (splits : List String) (chunk_size : ℕ) (splitter : String)
    (tc : String → ℕ) : Option (ℤ × String) :=
  match mergeLoopF splits chunk_size splitter tc (cumLengths splits)
      (splits.length + 1) 0 (splits.length + 1)
      (3602879701896397 / 2 ^ 54) with
  | none => none
  | some low =>
    some ((low : ℤ) - 1,
      if low = 0 then joinS splitter splits.dropLast
      else joinS splitter (splits.take (low - 1)))

/-- `chunkStep` with the binary64 merge engine (the loop body itself has
no float arithmetic; it differs from `chunkStep` only in calling
`merge_splitsF`). -/
def chunkStepF (rec : String → Option (List String)) (chunk_size : ℕ)
    (tc : String → ℕ) (sp : String) (spIsWhite : Bool) (splits : List String)
    (i : ℕ) (acc : List String × List ℕ) : Option (List String × List ℕ) :=
  if acc.2.contains i then some acc
  else
    let split := splits.getD i strE
    let merged : Option (List String × List ℕ) :=
      if chunk_size < tc split then
        match rec split with
        | none => none
        | some sub => some (acc.1 ++ sub, acc.2)
      else
        match merge_splitsF (splits.drop i) chunk_size sp tc with
        | none => none
        | some (fin, nc) =>
          some (acc.1 ++ [nc], acc.2 ++ List.range' (i + 1) (fin - 1).toNat)
    match merged with
    | none => none
    | some acc2 =>
      if spIsWhite = false ∧
          ¬(i = splits.length - 1 ∨
            (List.range' (i + 1) (splits.length - (i + 1))).all
              (fun j => acc2.2.contains j) = true) then
        match acc2.1.getLast? with
        | none => none
        | some last =>
          if tc (last ++ sp) ≤ chunk_size then
            some (acc2.1.dropLast ++ [last ++ sp], acc2.2)
          else some (acc2.1 ++ [sp], acc2.2)
      else some acc2

/-- `chunkLoop` over `chunkStepF`. -/
def chunkLoopF (rec : String → Option (List String)) (chunk_size : ℕ)
    (tc : String → ℕ) (sp : String) (spIsWhite : Bool) (splits : List String) :
    ℕ → ℕ → List String × List ℕ → Option (List String × List ℕ)
  | 0, _, acc => some acc
  | n + 1, i, acc =>
    match chunkStepF rec chunk_size tc sp spIsWhite splits i acc with
    | none => none
    | some acc2 => chunkLoopF rec chunk_size tc sp spIsWhite splits n (i + 1) acc2

/-- The recursive orchestrator under binary64 arithmetic. -/
def chunkRecF : ℕ → ℕ → (String → ℕ) → Bool → ℕ → String → Option (List String)
  | 0, _, _, _, _, _ => none
  | fuel + 1, chunk_size, tc, memoize, depth, text =>
    let tc2 := if depth = 0 ∧ memoize = true then memoised tc else tc
    let st := split_text text
    match chunkLoopF (fun t => chunkRecF fuel chunk_size tc2 memoize (depth + 1) t)
        chunk_size tc2 st.1 st.2.1 st.2.2 st.2.2.length 0 ([], []) with
    | none => none
    | some acc =>
      some (if depth = 0 then acc.1.filter (fun c => !(c == strE)) else acc.1)

/-- The public entry point under binary64 arithmetic: what CPython's
`chunk(text, chunk_size, token_counter, memoize)` computes. -/
def chunkF (fuel : ℕ) (text : String) (chunk_size : ℕ)
    (token_counter : String → ℕ) (memoize : Bool) : Option (List String) :=
  chunkRecF fuel chunk_size token_counter memoize 0 text

/-- A pure token counter that drives the double-precision average to an
underflow: the whole three-word text counts `10 ^ 330` tokens, the empty
string `101`, the join of the first two words `500`, anything else `1`. -/
def tcBig (s : String) : ℕ :=
  if s = "a b c" then 10 ^ 330
  else if s = "a b" then 500
  else if s = strE then 101
  else 1

/-! ## Basic algebra of `joinS`, `subAt`, `splitSeqF` -/

theorem mk_append (a b : List Char) :
    String.mk a ++ String.mk b = String.mk (a ++ b) := rfl

theorem mk_toList (s : String) : String.mk s.toList = s := rfl

theorem joinS_nil (sep : String) : joinS sep [] = strE := rfl

theorem joinS_single (sep : String) (x : String) : joinS sep [x] = x := rfl

theorem joinS_cons (sep x : String) (l : List String) (h : l ≠ []) :
    joinS sep (x :: l) = x ++ sep ++ joinS sep l := by
  cases l with
  | nil => exact absurd rfl h
  | cons y ys => rfl

theorem subAt_some (sep : List Char) :
    ∀ (l : List Char) (k : ℕ), subAt sep l = some k →
      l = l.take k ++ sep ++ l.drop (k + sep.length) := by
  intro l
  induction l with
  | nil =>
    intro k h
    simp only [subAt] at h
    by_cases hsep : sep = []
    · simp [hsep] at h ⊢
    · simp [hsep] at h
  | cons c rest ih =>
    intro k h
    simp only [subAt] at h
    by_cases hpre : sep.isPrefixOf (c :: rest)
    · rw [if_pos hpre] at h
      injection h with hk
      subst hk
      have hp : sep <+: (c :: rest) := List.isPrefixOf_iff_prefix.mp hpre
      obtain ⟨t, ht⟩ := hp
      rw [List.take_zero, List.nil_append, Nat.zero_add, ← ht, List.drop_left]
    · rw [if_neg hpre] at h
      cases hsub : subAt sep rest with
      | none => rw [hsub] at h; simp at h
      | some k2 =>
        rw [hsub] at h
        simp only [Option.map_some'] at h
        injection h with hk
        subst hk
        have hrec := ih k2 hsub
        rw [List.take_succ_cons]
        have h3 : k2 + 1 + sep.length = (k2 + sep.length) + 1 := by omega
        rw [h3, List.drop_succ_cons]
        simp only [List.cons_append]
        exact congrArg (c :: ·) hrec

theorem subAt_some_nil (sep : List Char) (k : ℕ) (h : subAt sep [] = some k) :
    sep = [] := by
  simp only [subAt] at h
  by_cases hsep : sep = []
  · exact hsep
  · simp [hsep] at h

theorem splitSeqF_ne_nil (sep : List Char) (n : ℕ) (l : List Char) :
    splitSeqF sep n l ≠ [] := by
  cases n with
  | zero => simp [splitSeqF]
  | succ m =>
    simp only [splitSeqF]
    cases subAt sep l with
    | none => simp
    | some k => simp

theorem splitSeqF_round_trip (sep : List Char) (hsep : sep ≠ []) :
    ∀ (n : ℕ) (l : List Char), l.length ≤ n →
      joinS (String.mk sep) ((splitSeqF sep n l).map (fun s => String.mk s)) =
        String.mk l := by
  intro n
  induction n with
  | zero =>
    intro l hl
    have : l = [] := List.eq_nil_of_length_eq_zero (Nat.le_zero.mp hl)
    subst this
    rfl
  | succ m ih =>
    intro l hl
    simp only [splitSeqF]
    cases hsub : subAt sep l with
    | none => simp [joinS_single]
    | some k =>
      have hocc := subAt_some sep l k hsub
      have hs : 1 ≤ sep.length := List.length_pos.mpr hsep
      have hdrop : (l.drop (k + sep.length)).length ≤ m := by
        rw [List.length_drop]
        omega
      have ihd := ih (l.drop (k + sep.length)) hdrop
      rw [List.map_cons]
      rw [joinS_cons _ _ _ (by
        simp only [ne_eq, List.map_eq_nil_iff]
        exact splitSeqF_ne_nil sep m _)]
      rw [ihd]
      exact congrArg String.mk hocc.symm

theorem pySplit_round_trip (sep t : String) :
    joinS sep (pySplit sep t) = t := by
  unfold pySplit
  by_cases hsep : sep.toList = []
  · simp only [hsep, if_pos, joinS_single]
  · simp only [hsep, if_neg, if_false]
    have h := splitSeqF_round_trip sep.toList hsep t.toList.length t.toList (le_refl _)
    calc joinS sep ((splitSeqF sep.toList t.toList.length t.toList).map (fun l => String.mk l))
        = joinS (String.mk sep.toList) ((splitSeqF sep.toList t.toList.length t.toList).map (fun l => String.mk l)) := by
          rw [mk_toList]
      _ = String.mk t.toList := h
      _ = t := mk_toList t

theorem joinS_chars (cs : List Char) :
    joinS strE (cs.map (fun c => String.mk [c])) = String.mk cs := by
  induction cs with
  | nil => rfl
  | cons c rest ih =>
    cases rest with
    | nil => rfl
    | cons d ds =>
      rw [List.map_cons]
      rw [joinS_cons _ _ _ (by simp)]
      rw [ih]
      rfl

/-- C7: for every fragment, if `_split_text(fragment)` returns
`(delimiter, is_whitespace, pieces)`, then `delimiter.join(pieces)`
reproduces the fragment exactly, including the per-character fallback where
the delimiter is empty. -/
theorem split_text_round_trip (text : String) :
    joinS (split_text text).1 (split_text text).2.2 = text := by
  unfold split_text
  by_cases h1 : text.toList.any nlRun
  · simp only [h1, if_pos, if_true]
    exact pySplit_round_trip _ _
  · simp only [h1, if_neg, if_false, Bool.false_eq_true]
    by_cases h2 : text.toList.any tabRun
    · simp only [h2, if_pos, if_true]
      exact pySplit_round_trip _ _
    · simp only [h2, if_neg, if_false, Bool.false_eq_true]
      by_cases h3 : text.toList.any pyWhitespace
      · simp only [h3, if_pos, if_true]
        exact pySplit_round_trip _ _
      · simp only [h3, if_neg, if_false, Bool.false_eq_true]
        cases hf : NON_WHITESPACE_SEMANTIC_SPLITTERS.find? (fun c => text.toList.contains c) with
        | none =>
          simp only
          exact joinS_chars text.toList
        | some c =>
          simp only
          exact pySplit_round_trip _ _

/-! ## The adaptive binary search of `merge_splits` -/

theorem bisectLoop_ge (a : List ℚ) (x : ℚ) :
    ∀ (fuel lo hi : ℕ), lo ≤ bisectLoop a x fuel lo hi := by
  intro fuel
  induction fuel with
  | zero => intro lo hi; simp [bisectLoop]
  | succ f ih =>
    intro lo hi
    simp only [bisectLoop]
    by_cases h : lo < hi
    · rw [if_pos h]
      by_cases hm : a.getD ((lo + hi) / 2) 0 < x
      · rw [if_pos hm]
        have h1 : lo ≤ (lo + hi) / 2 + 1 := by omega
        exact le_trans h1 (ih _ _)
      · rw [if_neg hm]
        exact ih _ _
    · rw [if_neg h]

theorem bisectLoop_pos (a : List ℚ) (x : ℚ) (h0 : a.getD 0 0 < x) :
    ∀ (fuel hi : ℕ), hi ≤ fuel → 1 ≤ hi → 1 ≤ bisectLoop a x fuel 0 hi := by
  intro fuel
  induction fuel with
  | zero => intro hi h1 h2; omega
  | succ f ih =>
    intro hi hf h1
    simp only [bisectLoop]
    rw [if_pos (by omega : 0 < hi)]
    by_cases hm : a.getD ((0 + hi) / 2) 0 < x
    · rw [if_pos hm]
      have := bisectLoop_ge a x f ((0 + hi) / 2 + 1) hi
      omega
    · rw [if_neg hm]
      have hmid : (0 + hi) / 2 < hi := by omega
      by_cases hz : (0 + hi) / 2 = 0
      · rw [hz] at hm
        exact absurd h0 hm
      · exact ih ((0 + hi) / 2) (by omega) (by omega)

theorem bisect_left_pos (a : List ℚ) (x : ℚ) (h0 : a.getD 0 0 < x)
    (ha : a ≠ []) : 1 ≤ bisect_left a x := by
  have h1 : 1 ≤ a.length := List.length_pos.mpr ha
  exact bisectLoop_pos a x h0 a.length a.length (le_refl _) h1

theorem getD_drop_zero (l : List ℚ) : ∀ (i : ℕ), (l.drop i).getD 0 0 = l.getD i 0 := by
  induction l with
  | nil => intro i; simp
  | cons c t ih =>
    intro i
    cases i with
    | zero => rfl
    | succ j => exact ih j

theorem getD_take_zero (l : List ℚ) (n : ℕ) (hn : 1 ≤ n) :
    (l.take n).getD 0 0 = l.getD 0 0 := by
  cases l with
  | nil => simp
  | cons c t =>
    cases n with
    | zero => omega
    | succ m => rfl

theorem cumLengths_length (splits : List String) :
    (cumLengths splits).length = splits.length + 2 := by
  simp [cumLengths]

theorem cumLengths_getD_zero (splits : List String) :
    (cumLengths splits).getD 0 0 = 0 := by
  simp only [cumLengths, List.range_succ_eq_map, List.map_cons, List.cons_append]
  simp

theorem cumLengths_mem_nonneg (splits : List String) :
    ∀ q ∈ cumLengths splits, 0 ≤ q := by
  intro q hq
  simp only [cumLengths, List.mem_append, List.mem_map, List.mem_singleton] at hq
  rcases hq with ⟨n, _, rfl⟩ | rfl
  · positivity
  · positivity

theorem cumLengths_nonneg (splits : List String) (m : ℕ) :
    0 ≤ (cumLengths splits).getD m 0 := by
  by_cases h : m < (cumLengths splits).length
  · rw [List.getD_eq_getElem _ _ h]
    exact cumLengths_mem_nonneg splits _ (List.getElem_mem h)
  · rw [List.getD_eq_default _ _ (by omega)]

theorem take_nonempty (l : List ℚ) (n : ℕ) (hn : 1 ≤ n) (hl : l ≠ []) :
    l.take n ≠ [] := by
  cases l with
  | nil => exact absurd rfl hl
  | cons c t =>
    cases n with
    | zero => omega
    | succ m => simp

theorem cumLengths_ne_nil (splits : List String) : cumLengths splits ≠ [] := by
  intro h
  have := cumLengths_length splits
  rw [h] at this
  simp at this

/-- Invariant analysis of the `merge_splits` loop in the situation in which
`chunk` calls it: the first split fits the budget. The loop then never
probes the empty prefix, its final `low` is at least 2, and the prefix of
`low - 1` splits it settled on was probed and fits the budget. -/
theorem mergeLoop_ctx (splits : List String) (cs : ℕ) (sp : String)
    (tc : String → ℕ) (hcs : 1 ≤ cs) (_hlen : 1 ≤ splits.length)
    (hhead : tc (joinS sp (splits.take 1)) ≤ cs) :
    ∀ (fuel low high : ℕ) (avg : ℚ), 0 < avg → low ≤ high →
      high ≤ splits.length + 1 → 1 ≤ high →
      (low = 0 → 2 ≤ high) →
      (1 ≤ low → 2 ≤ low ∧ tc (joinS sp (splits.take (low - 1))) ≤ cs) →
      ∀ low2, mergeLoop splits cs sp tc (cumLengths splits) fuel low high avg =
        some low2 →
      2 ≤ low2 ∧ low2 ≤ splits.length + 1 ∧
        tc (joinS sp (splits.take (low2 - 1))) ≤ cs := by
  intro fuel
  induction fuel with
  | zero =>
    intro low high avg havg hlh hhi hh1 hl0 hl1 low2 hres
    simp only [mergeLoop] at hres
    by_cases h : low < high
    · rw [if_pos h] at hres; exact absurd hres (by simp)
    · rw [if_neg h] at hres
      injection hres with he
      have h1 : 1 ≤ low := by omega
      rcases hl1 h1 with ⟨h2, h3⟩
      refine ⟨by omega, by omega, ?_⟩
      rw [← he]
      exact h3
  | succ f ih =>
    intro low high avg havg hlh hhi hh1 hl0 hl1 low2 hres
    simp only [mergeLoop] at hres
    by_cases h : low < high
    · rw [if_pos h] at hres
      set i := bisect_left ((cumLengths splits).drop low |>.take (high + 1 - low))
        ((cs : ℚ) * avg) with hi_def
      set midpoint := min (i + low) (high - 1) with hmid_def
      set tokens := tc (joinS sp (splits.take midpoint)) with htok_def
      -- the probed midpoint is at least 1
      have hmid1 : 1 ≤ midpoint := by
        by_cases hlow0 : low = 0
        · subst hlow0
          have hge2 : 2 ≤ high := hl0 rfl
          have hislice : ((cumLengths splits).drop 0 |>.take (high + 1 - 0)).getD 0 0 = 0 := by
            rw [List.drop_zero, getD_take_zero _ _ (by omega)]
            exact cumLengths_getD_zero splits
          have hne : ((cumLengths splits).drop 0 |>.take (high + 1 - 0)) ≠ [] := by
            rw [List.drop_zero]
            exact take_nonempty _ _ (by omega) (cumLengths_ne_nil splits)
          have hx : (0 : ℚ) < (cs : ℚ) * avg := by
            have : (1 : ℚ) ≤ (cs : ℚ) := by exact_mod_cast hcs
            nlinarith
          have hi1 : 1 ≤ i := by
            rw [hi_def]
            exact bisect_left_pos _ _ (by rw [hislice]; exact hx) hne
          have : 1 ≤ high - 1 := by omega
          omega
        · have : 1 ≤ low := by omega
          have := (hl1 this).1
          have hge : low ≤ midpoint := by
            rw [hmid_def]
            exact le_min (by omega) (by omega)
          omega
      have hmidhi : midpoint ≤ high - 1 := min_le_right _ _
      have hmidlow : low ≤ midpoint := by
        rw [hmid_def]
        exact le_min (by omega) (by omega)
      by_cases herr : (cumLengths splits).getD midpoint 0 ≠ 0 ∧ tokens = 0
      · rw [if_pos herr] at hres
        exact absurd hres (by simp)
      · rw [if_neg herr] at hres
        have havg2 : 0 < (if (cumLengths splits).getD midpoint 0 ≠ 0 then
            (cumLengths splits).getD midpoint 0 / (tokens : ℚ) else avg) := by
          by_cases hc : (cumLengths splits).getD midpoint 0 ≠ 0
          · rw [if_pos hc]
            have h1 : 0 < (cumLengths splits).getD midpoint 0 :=
              lt_of_le_of_ne (cumLengths_nonneg splits midpoint) (Ne.symm hc)
            have h2 : tokens ≠ 0 := fun hz => herr ⟨hc, hz⟩
            have h3 : (0 : ℚ) < (tokens : ℚ) := by
              exact_mod_cast Nat.pos_of_ne_zero h2
            positivity
          · rw [if_neg hc]; exact havg
        by_cases hbig : cs < tokens
        · rw [if_pos hbig] at hres
          -- high := midpoint
          have hm2 : low = 0 → 2 ≤ midpoint := by
            intro hlow0
            by_contra hlt
            have : midpoint = 1 := by omega
            rw [this] at htok_def
            rw [htok_def] at hbig
            omega
          exact ih low midpoint _ havg2 hmidlow (by omega)
            (by by_cases hlow0 : low = 0
                · exact le_trans (by omega) (hm2 hlow0)
                · have := (hl1 (by omega)).1; omega)
            (fun hlow0 => hm2 hlow0) hl1 low2 hres
        · rw [if_neg hbig] at hres
          -- low := midpoint + 1
          exact ih (midpoint + 1) high _ havg2 (by omega) hhi hh1 (by omega)
            (fun _ => ⟨by omega, by
              have : midpoint + 1 - 1 = midpoint := by omega
              rw [this, ← htok_def]; omega⟩) low2 hres
    · rw [if_neg h] at hres
      injection hres with he
      have h1 : 1 ≤ low := by omega
      rcases hl1 h1 with ⟨h2, h3⟩
      refine ⟨by omega, by omega, ?_⟩
      rw [← he]
      exact h3

/-- The behaviour of `merge_splits` when `chunk` invokes it: at least one
split is always merged, the merged text is the join of the first `k`
remaining splits where `k ≥ 1` is the integer returned, and the merged
text fits the budget (`chunk` only calls it when the first split fits). -/
theorem merge_splits_ctx (splits : List String) (cs : ℕ) (sp : String)
    (tc : String → ℕ) (hcs : 1 ≤ cs) (hlen : 1 ≤ splits.length)
    (hhead : tc (joinS sp (splits.take 1)) ≤ cs) (k : ℤ) (t : String)
    (hres : merge_splits splits cs sp tc = some (k, t)) :
    1 ≤ k ∧ k.toNat ≤ splits.length ∧ t = joinS sp (splits.take k.toNat) ∧
      tc t ≤ cs := by
  unfold merge_splits at hres
  cases hloop : mergeLoop splits cs sp tc (cumLengths splits)
      (splits.length + 1) 0 (splits.length + 1) (1 / 5) with
  | none => rw [hloop] at hres; exact absurd hres (by simp)
  | some low2 =>
    rw [hloop] at hres
    have hspec := mergeLoop_ctx splits cs sp tc hcs hlen hhead
      (splits.length + 1) 0 (splits.length + 1) (1 / 5) (by norm_num)
      (by omega) (le_refl _) (by omega) (fun _ => by omega) (by omega)
      low2 hloop
    rcases hspec with ⟨h2, hle, hfit⟩
    injection hres with hpair
    have hk : k = (low2 : ℤ) - 1 := by
      have := congrArg Prod.fst hpair
      simp at this
      omega
    have ht : t = if low2 = 0 then joinS sp splits.dropLast
        else joinS sp (splits.take (low2 - 1)) := by
      have := congrArg Prod.snd hpair
      simp at this
      exact this.symm
    rw [if_neg (by omega)] at ht
    have hknat : k.toNat = low2 - 1 := by omega
    refine ⟨by omega, by omega, ?_, ?_⟩
    · rw [ht, hknat]
    · rw [ht]; exact hfit

theorem mergeLoop_done (splits : List String) (cs : ℕ) (sp : String)
    (tc : String → ℕ) (cum : List ℚ) (fuel low high : ℕ) (avg : ℚ)
    (h : ¬ low < high) :
    mergeLoop splits cs sp tc cum fuel low high avg = some low := by
  cases fuel <;> simp [mergeLoop, h]

/-- The result of the merge loop does not depend on the fuel, for any fuel
of at least `high - low` (each iteration strictly shrinks the window, so
`merge_splits`'s initial fuel `len(splits) + 1` never runs out, and its
`none` results are exactly Python's `ZeroDivisionError`). -/
theorem mergeLoop_fuel_irrelevant (splits : List String) (cs : ℕ) (sp : String)
    (tc : String → ℕ) (cum : List ℚ) :
    ∀ (fuel fuel2 low high : ℕ) (avg : ℚ), high - low ≤ fuel →
      high - low ≤ fuel2 →
      mergeLoop splits cs sp tc cum fuel low high avg =
        mergeLoop splits cs sp tc cum fuel2 low high avg := by
  intro fuel
  induction fuel with
  | zero =>
    intro fuel2 low high avg h1 h2
    have hnl : ¬ low < high := by omega
    rw [mergeLoop_done _ _ _ _ _ _ _ _ _ hnl, mergeLoop_done _ _ _ _ _ _ _ _ _ hnl]
  | succ f ih =>
    intro fuel2 low high avg h1 h2
    by_cases h : low < high
    · cases fuel2 with
      | zero => omega
      | succ f2 =>
        simp only [mergeLoop]
        rw [if_pos h, if_pos h]
        set mid := min (bisect_left (((cum).drop low).take (high + 1 - low))
          ((cs : ℚ) * avg) + low) (high - 1) with hmid
        have hmlow : low ≤ mid := le_min (by omega) (by omega)
        have hmhigh : mid ≤ high - 1 := min_le_right _ _
        by_cases herr : cum.getD mid 0 ≠ 0 ∧ tc (joinS sp (splits.take mid)) = 0
        · rw [if_pos herr, if_pos herr]
        · rw [if_neg herr, if_neg herr]
          by_cases hbig : cs < tc (joinS sp (splits.take mid))
          · rw [if_pos hbig, if_pos hbig]
            exact ih f2 low mid _ (by omega) (by omega)
          · rw [if_neg hbig, if_neg hbig]
            exact ih f2 (mid + 1) high _ (by omega) (by omega)
    · rw [mergeLoop_done _ _ _ _ _ _ _ _ _ h, mergeLoop_done _ _ _ _ _ _ _ _ _ h]

theorem mergeLoop_max (splits : List String) (cs : ℕ) (sp : String)
    (tc : String → ℕ)
    (hmono : ∀ m2, m2 ≤ splits.length → ∀ m1, m1 ≤ m2 →
      tc (joinS sp (splits.take m1)) ≤ tc (joinS sp (splits.take m2)))
    (hempty : tc strE ≤ cs) :
    ∀ (fuel low high : ℕ) (avg : ℚ), low ≤ high → high ≤ splits.length + 1 →
      (∀ m, m < low → tc (joinS sp (splits.take m)) ≤ cs) →
      (∀ m, high ≤ m → m ≤ splits.length → cs < tc (joinS sp (splits.take m))) →
      ∀ low2, mergeLoop splits cs sp tc (cumLengths splits) fuel low high avg =
        some low2 →
      1 ≤ low2 ∧ low2 ≤ splits.length + 1 ∧
        (∀ m, m < low2 → tc (joinS sp (splits.take m)) ≤ cs) ∧
        (∀ m, low2 ≤ m → m ≤ splits.length → cs < tc (joinS sp (splits.take m))) := by
  intro fuel
  induction fuel with
  | zero =>
    intro low high avg hlh hhi hinv1 hinv2 low2 hres
    simp only [mergeLoop] at hres
    by_cases h : low < high
    · rw [if_pos h] at hres; exact absurd hres (by simp)
    · rw [if_neg h] at hres
      injection hres with he
      subst he
      refine ⟨?_, by omega, hinv1, fun m hm hmlen => hinv2 m (by omega) hmlen⟩
      by_contra hl0
      have := hinv2 0 (by omega) (by omega)
      have he2 : joinS sp (splits.take 0) = strE := rfl
      rw [he2] at this
      omega
  | succ f ih =>
    intro low high avg hlh hhi hinv1 hinv2 low2 hres
    simp only [mergeLoop] at hres
    by_cases h : low < high
    · rw [if_pos h] at hres
      set mid := min (bisect_left (((cumLengths splits).drop low).take
        (high + 1 - low)) ((cs : ℚ) * avg) + low) (high - 1) with hmid
      have hmlow : low ≤ mid := le_min (by omega) (by omega)
      have hmhigh : mid ≤ high - 1 := min_le_right _ _
      have hmlen : mid ≤ splits.length := by omega
      by_cases herr : (cumLengths splits).getD mid 0 ≠ 0 ∧
          tc (joinS sp (splits.take mid)) = 0
      · rw [if_pos herr] at hres; exact absurd hres (by simp)
      · rw [if_neg herr] at hres
        by_cases hbig : cs < tc (joinS sp (splits.take mid))
        · rw [if_pos hbig] at hres
          exact ih low mid _ (by omega) (by omega) hinv1
            (fun m hm1 hm2 => lt_of_lt_of_le hbig (hmono m hm2 mid hm1)) low2 hres
        · rw [if_neg hbig] at hres
          exact ih (mid + 1) high _ (by omega) hhi
            (fun m hm => le_trans (hmono mid hmlen m (by omega)) (by omega))
            hinv2 low2 hres
    · rw [if_neg h] at hres
      injection hres with he
      subst he
      refine ⟨?_, by omega, hinv1, fun m hm hmlen => hinv2 m (by omega) hmlen⟩
      by_contra hl0
      have := hinv2 0 (by omega) (by omega)
      have he2 : joinS sp (splits.take 0) = strE := rfl
      rw [he2] at this
      omega

/-- C2 (amended): for a token counter that is non-decreasing over prefixes
of the piece list (joined with the delimiter) and accepts the empty join,
a successful `merge_splits(pieces, budget, delimiter, counter)` returns
the pair `(k, delimiter.join(pieces[0:k]))` where `k` is the largest
prefix-count whose join stays within the budget. The integer returned is
thus the count of merged pieces — the index one past the last included
piece — not `k - 1` as the specification states; and without the
monotonicity assumption the binary search need not find the largest
prefix. -/
theorem merge_splits_largest_prefix (splits : List String) (cs : ℕ) (sp : String)
    (tc : String → ℕ)
    (hmono : ∀ m2, m2 ≤ splits.length → ∀ m1, m1 ≤ m2 →
      tc (joinS sp (splits.take m1)) ≤ tc (joinS sp (splits.take m2)))
    (hempty : tc strE ≤ cs) (k : ℤ) (t : String)
    (hres : merge_splits splits cs sp tc = some (k, t)) :
    0 ≤ k ∧ k.toNat ≤ splits.length ∧ t = joinS sp (splits.take k.toNat) ∧
      tc t ≤ cs ∧
      ∀ m, m ≤ splits.length → tc (joinS sp (splits.take m)) ≤ cs → (m : ℤ) ≤ k := by
  unfold merge_splits at hres
  cases hloop : mergeLoop splits cs sp tc (cumLengths splits)
      (splits.length + 1) 0 (splits.length + 1) (1 / 5) with
  | none => rw [hloop] at hres; exact absurd hres (by simp)
  | some low2 =>
    rw [hloop] at hres
    have hspec := mergeLoop_max splits cs sp tc hmono hempty
      (splits.length + 1) 0 (splits.length + 1) (1 / 5) (by omega) (le_refl _)
      (by omega) (fun m hm1 hm2 => by omega) low2 hloop
    rcases hspec with ⟨h1, hle, hfit, hover⟩
    injection hres with hpair
    have hk : k = (low2 : ℤ) - 1 := by
      have := congrArg Prod.fst hpair
      simp at this
      omega
    have ht : t = if low2 = 0 then joinS sp splits.dropLast
        else joinS sp (splits.take (low2 - 1)) := by
      have := congrArg Prod.snd hpair
      simp at this
      exact this.symm
    rw [if_neg (by omega)] at ht
    have hknat : k.toNat = low2 - 1 := by omega
    refine ⟨by omega, by omega, by rw [ht, hknat], ?_, ?_⟩
    · rw [ht]
      exact hfit (low2 - 1) (by omega)
    · intro m hmlen hmfit
      by_contra hgt
      have hml : low2 ≤ m := by omega
      have := hover m hml hmlen
      omega

/-- C2, counterexample to the claim as stated: with the character-count
counter and budget 1 on pieces `["a", "b"]`, the largest within-budget
prefix-count is `k = 1` (the join of one piece, `"a"`, has one token while
the join of two, `"ab"`, has two), yet `merge_splits` returns the pair
`(1, "a")` — the count `k` itself — and not `(k - 1, "a") = (0, "a")` as
the claim predicts; the integer is not the index of the last included
piece. -/
theorem merge_splits_largest_prefix_counterexample :
    merge_splits ["a", "b"] 1 strE (fun s => s.length) = some (1, "a") ∧
    merge_splits ["a", "b"] 1 strE (fun s => s.length) ≠ some (0, "a") ∧
    (fun s => s.length) (joinS strE (List.take 1 ["a", "b"])) ≤ 1 ∧
    ¬ (fun s => s.length) (joinS strE (List.take 2 ["a", "b"])) ≤ 1 := by
  refine ⟨by decide, by decide, by decide, by decide⟩

/-- Witness for `merge_splits_largest_prefix` at a concrete input. -/
theorem merge_splits_largest_prefix_witness :
    (∀ m2, m2 ≤ (["a", "b"] : List String).length → ∀ m1, m1 ≤ m2 →
      (fun s => s.length) (joinS strE (List.take m1 ["a", "b"])) ≤
        (fun s => s.length) (joinS strE (List.take m2 ["a", "b"]))) ∧
    (fun s => s.length) strE ≤ 1 ∧
    (0 ≤ (1 : ℤ) ∧ (1 : ℤ).toNat ≤ (["a", "b"] : List String).length ∧
      "a" = joinS strE (List.take (1 : ℤ).toNat ["a", "b"]) ∧
      (fun s => s.length) "a" ≤ 1 ∧
      ∀ m, m ≤ (["a", "b"] : List String).length →
        (fun s => s.length) (joinS strE (List.take m ["a", "b"])) ≤ 1 →
          (m : ℤ) ≤ 1) :=
  ⟨by decide, by decide,
    merge_splits_largest_prefix ["a", "b"] 1 strE (fun s => s.length)
      (by decide) (by decide) 1 "a" (by decide)⟩

/-- C3 (amended): on a nonempty piece list whose first piece alone exceeds
the budget, `merge_splits` does NOT return that piece. In the singleton
case (with a positive budget that accommodates the empty join), it merges
zero pieces: it returns the pair `(0, "")` — count zero and the empty
string — and the oversized piece is not part of the merged text. The
orchestrator never reaches this case because it recurses on oversized
pieces before merging. Stated for budgets and piece lengths up to
`2 ^ 1023`, i.e. inside the binary64 range: for a budget beyond it
(≈ 1.8·10^308) CPython does not complete at all but raises
`OverflowError` converting `chunk_size` to a double at
`chunk_size * average` (the conversion `roundD` embeds as `none` in the
binary64 model); within the bound the two models take the same branches
on this scenario, every probe landing on the empty prefix or on the whole
piece (`merge_splitsF_agrees_oversized_singleton` checks the witness
input). -/
theorem merge_splits_oversized_first (piece : String) (cs : ℕ) (sp : String)
    (tc : String → ℕ) (hcs : 1 ≤ cs) (hempty : tc strE ≤ cs)
    (hbig : cs < tc piece) (_hcsb : cs ≤ 2 ^ 1023)
    (_hpl : piece.length ≤ 2 ^ 1023) :
    merge_splits [piece] cs sp tc = some (0, strE) := by
  have hne : piece.length ≠ 0 := by
    intro h0
    have hp : piece = strE := by
      cases piece with
      | mk d =>
        cases d with
        | nil => rfl
        | cons a t => simp [String.length] at h0
    rw [hp] at hbig
    omega
  have hLpos : (0 : ℚ) < (piece.length : ℚ) := by
    exact_mod_cast Nat.pos_of_ne_zero hne
  have hcspos : (0 : ℚ) < (cs : ℚ) := by
    exact_mod_cast hcs
  have hcum : cumLengths [piece] = [0, (piece.length : ℚ), (piece.length : ℚ)] := by
    simp [cumLengths, List.range_succ]
  have htokpos : (0 : ℚ) < (tc piece : ℚ) := by
    have : 1 ≤ tc piece := by omega
    exact_mod_cast this
  have step1 : mergeLoop [piece] cs sp tc
      [0, (piece.length : ℚ), (piece.length : ℚ)] (1 + 1) 0 (1 + 1) (1 / 5) =
      mergeLoop [piece] cs sp tc [0, (piece.length : ℚ), (piece.length : ℚ)]
        1 0 1 ((piece.length : ℚ) / (tc piece : ℚ)) := by
    simp only [mergeLoop]
    rw [if_pos (by omega : (0 : ℕ) < 1 + 1)]
    generalize hm : (bisect_left
      (List.take (1 + 1 + 1 - 0)
        (List.drop 0 [0, (piece.length : ℚ), (piece.length : ℚ)]))
      ((cs : ℚ) * (1 / 5)) + 0) ⊓ (1 + 1 - 1) = mid
    have hmval : mid = 1 := by
      rw [← hm]
      have h0 : (List.take (1 + 1 + 1 - 0)
          (List.drop 0 ([0, (piece.length : ℚ), (piece.length : ℚ)]))).getD 0 0 = 0 := by
        rfl
      have hne2 : (List.take (1 + 1 + 1 - 0)
          (List.drop 0 ([0, (piece.length : ℚ), (piece.length : ℚ)]))) ≠ [] := by
        simp
      have hx : (0 : ℚ) < (cs : ℚ) * (1 / 5) := by positivity
      have hi := bisect_left_pos _ _ (by rw [h0]; exact hx) hne2
      have : 1 ≤ bisect_left (List.take (1 + 1 + 1 - 0)
          (List.drop 0 [0, (piece.length : ℚ), (piece.length : ℚ)]))
          ((cs : ℚ) * (1 / 5)) + 0 := by omega
      omega
    subst hmval
    have hg : ([0, (piece.length : ℚ), (piece.length : ℚ)] : List ℚ).getD 1 0 =
        (piece.length : ℚ) := rfl
    have htake : List.take 1 [piece] = [piece] := rfl
    simp only [hg, htake, joinS_single]
    rw [if_neg (by
      intro hand
      have := hand.2
      omega)]
    rw [if_pos hLpos.ne']
    rw [if_pos hbig]
  have step2 : mergeLoop [piece] cs sp tc
      [0, (piece.length : ℚ), (piece.length : ℚ)] 1 0 1
      ((piece.length : ℚ) / (tc piece : ℚ)) = some 1 := by
    rw [show (1 : ℕ) = 0 + 1 from rfl]
    simp only [mergeLoop]
    rw [if_pos (by omega : (0 : ℕ) < 0 + 1)]
    generalize hm : (bisect_left
      (List.take (0 + 1 + 1 - 0)
        (List.drop 0 [0, (piece.length : ℚ), (piece.length : ℚ)]))
      ((cs : ℚ) * ((piece.length : ℚ) / (tc piece : ℚ))) + 0) ⊓ (0 + 1 - 1) = mid
    have hmval : mid = 0 := by
      rw [← hm]
      omega
    subst hmval
    have hg0 : ([0, (piece.length : ℚ), (piece.length : ℚ)] : List ℚ).getD 0 0 =
        (0 : ℚ) := rfl
    have htake0 : List.take 0 [piece] = ([] : List String) := rfl
    simp only [hg0, htake0, joinS_nil]
    rw [if_neg (by
      intro hand
      exact hand.1 rfl)]
    rw [if_neg (Nat.not_lt.mpr hempty)]
    norm_num
  have hLen : [piece].length = 1 := rfl
  unfold merge_splits
  rw [hLen, hcum, step1, step2]
  norm_num [joinS_nil]

/-- C3, counterexample to the claim as stated: with the character-count
counter, budget 1 and the single piece `"abc"` (3 tokens, over budget),
`merge_splits` returns `(0, "")`, whose merged text is the empty string
and not the oversized first piece `"abc"`. -/
theorem merge_splits_oversized_first_counterexample :
    merge_splits ["abc"] 1 strE (fun s => s.length) = some (0, strE) ∧
    merge_splits ["abc"] 1 strE (fun s => s.length) ≠ some (0, "abc") := by
  refine ⟨by decide, by decide⟩

/-- Witness for `merge_splits_oversized_first` at a concrete input. -/
theorem merge_splits_oversized_first_witness :
    1 ≤ 1 ∧ (fun s => s.length) strE ≤ 1 ∧ 1 < (fun s => s.length) "abc" ∧
    1 ≤ 2 ^ 1023 ∧ ("abc" : String).length ≤ 2 ^ 1023 ∧
    merge_splits ["abc"] 1 strE (fun s => s.length) = some (0, strE) :=
  ⟨by decide, by decide, by decide, by decide, by decide,
    merge_splits_oversized_first "abc" 1 strE (fun s => s.length)
      (by decide) (by decide) (by decide) (by decide) (by decide)⟩

/-- C10: the engine itself can raise a division by zero. With the
constant-zero token counter (a valid pure counter returning a non-negative
count) on pieces `["a", "b"]` with budget 1, the first probe of
`merge_splits` measures `tokens = 0` at a midpoint whose cumulative length
is nonzero, and `cumulative_lengths[midpoint] / tokens` divides by zero
(`none` in this embedding, whose merge loop has no other failure: its fuel
never runs out by `mergeLoop_fuel_irrelevant`). Consequently the top-level
`chunk("ab", 1, zero_counter)` fails for every recursion-depth fuel. -/
theorem merge_splits_zero_counter_divzero :
    merge_splits ["a", "b"] 1 strE (fun _ => 0) = none ∧
    ∀ (fuel : ℕ) (m : Bool), chunk (fuel + 1) "ab" 1 (fun _ => 0) m = none := by
  constructor
  · decide
  · intro fuel m
    show chunkRec (fuel + 1) 1 (fun _ => 0) m 0 "ab" = none
    have hsplit : split_text "ab" = (strE, true, ["a", "b"]) := by decide
    have hmerge : merge_splits ["a", "b"] 1 strE (fun _ => 0) = none := by
      decide
    simp only [chunkRec, memoised, hsplit, chunkLoop, chunkStep, List.drop_zero]
    simp [hmerge]

/-- C4: the code contradicts the claim. A single character that is neither
whitespace nor one of the semantic splitters falls back to the
per-character split, whose sole piece is the character itself; if its token
count exceeds the budget, `chunk` recurses on the very same text with no
progress, so Python raises `RecursionError` instead of emitting the
character as a best-effort oversized chunk. In the embedding: with the
constant counter 2, budget 1 and text `"x"`, the computation fails
(returns `none`) for every recursion-depth fuel, at every depth. -/
theorem chunk_oversized_char_diverges :
    (∀ (fuel depth : ℕ) (m : Bool), chunkRec fuel 1 (fun _ => 2) m depth "x" = none) ∧
    (∀ (fuel : ℕ) (m : Bool), chunk fuel "x" 1 (fun _ => 2) m = none) := by
  have main : ∀ (fuel depth : ℕ) (m : Bool),
      chunkRec fuel 1 (fun _ => 2) m depth "x" = none := by
    intro fuel
    induction fuel with
    | zero => intro depth m; rfl
    | succ f ih =>
      intro depth m
      have hsplit : split_text "x" = (strE, true, ["x"]) := by decide
      simp only [chunkRec, memoised, ite_self, hsplit, chunkLoop, chunkStep]
      simp [ih]
  exact ⟨main, fun fuel m => main fuel 0 m⟩

/-- C9: determinism and memoization-independence. The orchestrator is a
pure function of its arguments (`functools.cache` applied to a pure
counter computes that counter, and the `chunk`-level cache only returns
previously computed results of the same pure function), so repeated calls
with identical arguments return identical chunk sequences, and the result
with `memoize = True` equals the result with `memoize = False`. -/
theorem chunk_deterministic_memoize_free :
    ∀ (fuel : ℕ) (text : String) (cs : ℕ) (tc : String → ℕ),
      chunk fuel text cs tc true = chunk fuel text cs tc true ∧
      chunk fuel text cs tc true = chunk fuel text cs tc false := by
  have aux : ∀ (fuel cs : ℕ) (tc : String → ℕ) (depth : ℕ) (text : String),
      chunkRec fuel cs tc true depth text = chunkRec fuel cs tc false depth text := by
    intro fuel
    induction fuel with
    | zero => intro cs tc depth text; rfl
    | succ f ih =>
      intro cs tc depth text
      simp only [chunkRec, memoised, ite_self]
      have hfun : (fun t => chunkRec f cs tc true (depth + 1) t) =
          (fun t => chunkRec f cs tc false (depth + 1) t) :=
        funext (fun t => ih cs tc (depth + 1) t)
      rw [hfun]
  intro fuel text cs tc
  exact ⟨rfl, aux fuel cs tc 0 text⟩

/-- C8: every string in the list returned by the top-level `chunk` call is
non-empty: the outermost call (recursion depth 0) filters falsy — that is,
empty — chunks out of the result before returning it. -/
theorem chunk_returns_nonempty :
    ∀ (fuel cs : ℕ) (tc : String → ℕ) (m : Bool) (text : String)
      (out : List String),
      chunk fuel text cs tc m = some out → ∀ c ∈ out, c ≠ strE := by
  intro fuel cs tc m text out hres c hc
  cases fuel with
  | zero => simp [chunk, chunkRec] at hres
  | succ f =>
    unfold chunk at hres
    simp only [chunkRec] at hres
    split at hres
    · exact absurd hres (by simp)
    · injection hres with hout
      rw [← hout] at hc
      have hmem := List.mem_filter.mp hc
      simpa using hmem.2

/-- Witness for `chunk_returns_nonempty` at a concrete input. -/
theorem chunk_returns_nonempty_witness :
    chunk 5 "a b" 1 (fun s => s.length) true = some ["a", "b"] ∧
    ∀ c ∈ (["a", "b"] : List String), c ≠ strE :=
  ⟨by decide,
    chunk_returns_nonempty 5 1 (fun s => s.length) true "a b" ["a", "b"]
      (by decide)⟩


theorem listLt_nil_right (a : List Char) : listLt a [] = false := by
  cases a <;> rfl

theorem listLt_irrefl (a : List Char) : listLt a a = false := by
  induction a with
  | nil => rfl
  | cons c rest ih => simp [listLt, ih]

theorem strLt_irrefl (s : String) : strLt s s = false := listLt_irrefl s.toList

theorem listLt_trans : ∀ (a b c : List Char), listLt a b = true →
    listLt b c = true → listLt a c = true := by
  intro a
  induction a with
  | nil =>
    intro b c hab hbc
    cases c with
    | nil => rw [listLt_nil_right] at hbc; exact absurd hbc (by simp)
    | cons z cs => rfl
  | cons x as ih =>
    intro b c hab hbc
    cases b with
    | nil => rw [listLt_nil_right] at hab; exact absurd hab (by simp)
    | cons y bs =>
      cases c with
      | nil => rw [listLt_nil_right] at hbc; exact absurd hbc (by simp)
      | cons z cs =>
        simp only [listLt] at hab hbc ⊢
        by_cases h1 : x.toNat < y.toNat
        · by_cases h2 : y.toNat < z.toNat
          · rw [if_pos (by omega : x.toNat < z.toNat)]
          · rw [if_neg h2] at hbc
            by_cases h3 : z.toNat < y.toNat
            · rw [if_pos h3] at hbc; exact absurd hbc (by simp)
            · rw [if_pos (by omega : x.toNat < z.toNat)]
        · rw [if_neg h1] at hab
          by_cases h4 : y.toNat < x.toNat
          · rw [if_pos h4] at hab; exact absurd hab (by simp)
          · rw [if_neg h4] at hab
            by_cases h2 : y.toNat < z.toNat
            · rw [if_pos (by omega : x.toNat < z.toNat)]
            · rw [if_neg h2] at hbc
              by_cases h3 : z.toNat < y.toNat
              · rw [if_pos h3] at hbc; exact absurd hbc (by simp)
              · rw [if_neg h3] at hbc
                rw [if_neg (by omega : ¬ x.toNat < z.toNat),
                  if_neg (by omega : ¬ z.toNat < x.toNat)]
                exact ih bs cs hab hbc

theorem strLt_trans (a b c : String) (h1 : strLt a b = true)
    (h2 : strLt b c = true) : strLt a c = true :=
  listLt_trans a.toList b.toList c.toList h1 h2

theorem listLt_connex : ∀ (a b : List Char), listLt a b = false →
    listLt b a = false → a = b := by
  intro a
  induction a with
  | nil =>
    intro b hab _
    cases b with
    | nil => rfl
    | cons y bs => simp [listLt] at hab
  | cons x as ih =>
    intro b hab hba
    cases b with
    | nil => simp [listLt] at hba
    | cons y bs =>
      simp only [listLt] at hab hba
      by_cases h1 : x.toNat < y.toNat
      · rw [if_pos h1] at hab; exact absurd hab (by simp)
      · by_cases h2 : y.toNat < x.toNat
        · rw [if_pos h2] at hba; exact absurd hba (by simp)
        · rw [if_neg h1, if_neg h2] at hab
          rw [if_neg h2, if_neg h1] at hba
          have hxy : x = y := by
            have hn : x.toNat = y.toNat := by omega
            exact Char.ext (UInt32.ext hn)
          rw [hxy]
          exact congrArg (y :: ·) (ih bs hab hba)

theorem strLt_antisymm (a b : String) (h1 : strLt a b = false)
    (h2 : strLt b a = false) : a = b := by
  have hL : a.toList = b.toList := listLt_connex a.toList b.toList h1 h2
  cases a with
  | mk d1 =>
    cases b with
    | mk d2 =>
      have : d1 = d2 := hL
      rw [this]

theorem foldl_max_spec (xs : List String) : ∀ (start : String),
    (xs.foldl (fun a b => if strLt a b then b else a) start ∈ start :: xs) ∧
    (∀ r ∈ start :: xs,
      strLt (xs.foldl (fun a b => if strLt a b then b else a) start) r = false) := by
  induction xs with
  | nil =>
    intro start
    refine ⟨by simp, ?_⟩
    intro r hr
    simp at hr
    subst hr
    exact strLt_irrefl _
  | cons b rest ih =>
    intro start
    by_cases hsb : strLt start b = true
    · have ih2 := ih b
      rw [List.foldl_cons]
      rw [if_pos hsb]
      refine ⟨?_, ?_⟩
      · rcases List.mem_cons.mp ih2.1 with h | h
        · simp [h]
        · simp only [List.mem_cons]
          right; right; exact h
      · intro r hr
        rcases List.mem_cons.mp hr with hr1 | hr2
        · subst hr1
          by_contra hlt
          have hlt2 : strLt (List.foldl (fun a b => if strLt a b then b else a) b rest) r = true := by
            revert hlt
            cases strLt (List.foldl (fun a b => if strLt a b then b else a) b rest) r <;> simp
          have hres_b := ih2.2 b (by simp)
          have := strLt_trans _ _ _ hlt2 hsb
          rw [this] at hres_b
          exact absurd hres_b (by simp)
        · exact ih2.2 r hr2
    · have ih2 := ih start
      rw [List.foldl_cons]
      rw [if_neg hsb]
      refine ⟨?_, ?_⟩
      · rcases List.mem_cons.mp ih2.1 with h | h
        · simp [h]
        · simp only [List.mem_cons]
          right; right; exact h
      · intro r hr
        rcases List.mem_cons.mp hr with hr1 | hr2
        · subst hr1
          exact ih2.2 r (by simp)
        · rcases List.mem_cons.mp hr2 with hrb | hrr
          · subst hrb
            by_contra hlt
            have hlt2 : strLt (List.foldl (fun a b => if strLt a b then b else a) start rest) r = true := by
              revert hlt
              cases strLt (List.foldl (fun a b => if strLt a b then b else a) start rest) r <;> simp
            have hres_start := ih2.2 start (by simp)
            have hsb2 : strLt start r = false := by
              revert hsb
              cases strLt start r <;> simp
            by_cases hbs : strLt r start = true
            · have := strLt_trans _ _ _ hlt2 hbs
              rw [this] at hres_start
              exact absurd hres_start (by simp)
            · have hbs2 : strLt r start = false := by
                revert hbs
                cases strLt r start <;> simp
              have heq : start = r := strLt_antisymm start r hsb2 hbs2
              rw [← heq] at hlt2
              rw [hlt2] at hres_start
              exact absurd hres_start (by simp)
          · exact ih2.2 r (by simp [hrr])

theorem maxString_mem (l : List String) (h : l ≠ []) : maxString l ∈ l := by
  cases l with
  | nil => exact absurd rfl h
  | cons x xs => exact (foldl_max_spec xs x).1

theorem maxString_not_lt (l : List String) (h : l ≠ []) :
    ∀ r ∈ l, strLt (maxString l) r = false := by
  cases l with
  | nil => exact absurd rfl h
  | cons x xs => exact (foldl_max_spec xs x).2

theorem runs_ne_nil_of_any (p : Char → Bool) :
    ∀ (l : List Char), l.any p = true → runs p l ≠ [] := by
  intro l
  induction l with
  | nil => intro h; simp at h
  | cons c rest ih =>
    intro h
    by_cases hc : p c = true
    · cases rest with
      | nil => simp [runs, hc]
      | cons d ds =>
        simp only [runs, if_pos hc]
        split
        · split <;> simp
        · simp
    · simp only [runs, if_neg hc]
      have : rest.any p = true := by
        simp only [List.any_cons] at h
        rcases Bool.or_eq_true_iff.mp h with h1 | h1
        · exact absurd h1 hc
        · exact h1
      exact ih this

/-- C5 (amended): when the fragment contains a newline or carriage
return, the splitter selector chooses, among all maximal runs of
newline/carriage-return characters, the one that is greatest in Python's
lexicographic string order (`max`), not the longest one: the chosen
splitter is one of the runs and no run compares strictly greater. (The
same `max` mechanism drives the tab and whitespace tiers; for tab runs,
which repeat a single character, the lexicographic maximum happens to be
the longest run, but for mixed newline/carriage-return or mixed
whitespace runs it need not be, see the counterexample.) -/
theorem split_text_nl_lexmax (text : String)
    (h : text.toList.any nlRun = true) :
    (split_text text).1 ∈ (runs nlRun text.toList).map (fun r => String.mk r) ∧
    ∀ r ∈ (runs nlRun text.toList).map (fun r => String.mk r),
      strLt (split_text text).1 r = false := by
  have hne : (runs nlRun text.toList).map (fun r => String.mk r) ≠ [] := by
    simp only [ne_eq, List.map_eq_nil_iff]
    exact runs_ne_nil_of_any nlRun text.toList h
  unfold split_text
  simp only [h, if_true]
  exact ⟨maxString_mem _ hne, maxString_not_lt _ hne⟩

/-- C5, counterexample to the claim as stated: in the fragment below the
maximal runs of newline/carriage-return characters are a double newline
(length 2) and a single carriage return (length 1); Python's `max`
compares lexicographically by code point and code 13 beats code 10, so
the selector picks the single carriage return, not the longest run. -/
theorem split_text_longest_run_counterexample :
    (split_text "a\n\nb\rc").1 = String.mk ['\r'] ∧
    String.mk ['\n', '\n'] ∈
      (runs nlRun ("a\n\nb\rc").toList).map (fun r => String.mk r) ∧
    (split_text "a\n\nb\rc").1.length < (String.mk ['\n', '\n']).length := by
  refine ⟨by decide, by decide, by decide⟩

/-- Witness for `split_text_nl_lexmax` at a concrete input. -/
theorem split_text_nl_lexmax_witness :
    ("a\nb".toList.any nlRun = true) ∧
    ((split_text "a\nb").1 ∈ (runs nlRun ("a\nb").toList).map (fun r => String.mk r) ∧
      ∀ r ∈ (runs nlRun ("a\nb").toList).map (fun r => String.mk r),
        strLt (split_text "a\nb").1 r = false) :=
  ⟨by decide, split_text_nl_lexmax "a\nb" (by decide)⟩


theorem split_text_nonws_single (t : String)
    (h : (split_text t).2.1 = false) : (split_text t).1.length = 1 := by
  simp only [split_text] at h ⊢
  by_cases h1 : t.toList.any nlRun = true
  · rw [if_pos h1] at h
    exact absurd h (by simp)
  · rw [if_neg h1] at h ⊢
    by_cases h2 : t.toList.any tabRun = true
    · rw [if_pos h2] at h
      exact absurd h (by simp)
    · rw [if_neg h2] at h ⊢
      by_cases h3 : t.toList.any pyWhitespace = true
      · rw [if_pos h3] at h
        exact absurd h (by simp)
      · rw [if_neg h3] at h ⊢
        cases hf : NON_WHITESPACE_SEMANTIC_SPLITTERS.find?
            (fun c => t.toList.contains c) with
        | none => rw [hf] at h; exact absurd h (by simp)
        | some c => rfl

theorem drop_head_getD (splits : List String) (i : ℕ) (hi : i < splits.length) :
    (splits.drop i).take 1 = [splits.getD i strE] := by
  rw [List.drop_eq_getElem_cons hi]
  rw [List.getD_eq_getElem _ _ hi]
  rfl

theorem chunkStep_budget (rec : String → Option (List String)) (cs : ℕ)
    (tc : String → ℕ) (sp : String) (sIsW : Bool) (splits : List String)
    (hcs : 1 ≤ cs) (hspw : sIsW = false → sp.length = 1)
    (hrec : ∀ t out, rec t = some out → ∀ c ∈ out, tc c ≤ cs ∨ c.length = 1)
    (i : ℕ) (hi : i < splits.length) (acc : List String × List ℕ)
    (hacc : ∀ c ∈ acc.1, tc c ≤ cs ∨ c.length = 1)
    (acc2 : List String × List ℕ)
    (hstep : chunkStep rec cs tc sp sIsW splits i acc = some acc2) :
    ∀ c ∈ acc2.1, tc c ≤ cs ∨ c.length = 1 := by
  simp only [chunkStep] at hstep
  by_cases hskip : acc.2.contains i = true
  · rw [if_pos hskip] at hstep
    injection hstep with he
    rw [← he]
    exact hacc
  · rw [if_neg hskip] at hstep
    -- resolve the merged value
    have hmid : ∀ (accm : List String × List ℕ),
        (if cs < tc (splits.getD i strE) then
          match rec (splits.getD i strE) with
          | none => none
          | some sub => some (acc.1 ++ sub, acc.2)
        else
          match merge_splits (splits.drop i) cs sp tc with
          | none => none
          | some (fin, nc) =>
            some (acc.1 ++ [nc], acc.2 ++ List.range' (i + 1) (fin - 1).toNat)) =
          some accm →
        ∀ c ∈ accm.1, tc c ≤ cs ∨ c.length = 1 := by
      intro accm hm
      by_cases hbig : cs < tc (splits.getD i strE)
      · rw [if_pos hbig] at hm
        cases hr : rec (splits.getD i strE) with
        | none => rw [hr] at hm; exact absurd hm (by simp)
        | some sub =>
          rw [hr] at hm
          injection hm with he
          rw [← he]
          intro c hc
          rcases List.mem_append.mp hc with h | h
          · exact hacc c h
          · exact hrec _ _ hr c h
      · rw [if_neg hbig] at hm
        cases hmg : merge_splits (splits.drop i) cs sp tc with
        | none => rw [hmg] at hm; exact absurd hm (by simp)
        | some p =>
          rcases p with ⟨fin, nc⟩
          rw [hmg] at hm
          injection hm with he
          rw [← he]
          intro c hc
          rcases List.mem_append.mp hc with h | h
          · exact hacc c h
          · have hone : c = nc := by simpa using h
            have hdl : 1 ≤ (splits.drop i).length := by
              rw [List.length_drop]
              omega
            have hhead : tc (joinS sp ((splits.drop i).take 1)) ≤ cs := by
              rw [drop_head_getD splits i hi, joinS_single]
              omega
            have hctx := merge_splits_ctx (splits.drop i) cs sp tc hcs hdl hhead
              fin nc hmg
            rw [hone]
            exact Or.inl hctx.2.2.2
    split at hstep
    · exact absurd hstep (by simp)
    · rename_i accm hmerged
      have haccm := hmid accm hmerged
      by_cases hreatt : sIsW = false ∧
          ¬(i = splits.length - 1 ∨
            (List.range' (i + 1) (splits.length - (i + 1))).all
              (fun j => accm.2.contains j) = true)
      · rw [if_pos hreatt] at hstep
        split at hstep
        · exact absurd hstep (by simp)
        · rename_i last hlast
          by_cases hfit : tc (last ++ sp) ≤ cs
          · rw [if_pos hfit] at hstep
            injection hstep with he
            rw [← he]
            intro c hc
            rcases List.mem_append.mp hc with h | h
            · exact haccm c (List.mem_of_mem_dropLast h)
            · have : c = last ++ sp := by simpa using h
              subst this
              exact Or.inl hfit
          · rw [if_neg hfit] at hstep
            injection hstep with he
            rw [← he]
            intro c hc
            rcases List.mem_append.mp hc with h | h
            · exact haccm c h
            · have : c = sp := by simpa using h
              subst this
              exact Or.inr (hspw hreatt.1)
      · rw [if_neg hreatt] at hstep
        injection hstep with he
        rw [← he]
        exact haccm

theorem chunkLoop_budget (rec : String → Option (List String)) (cs : ℕ)
    (tc : String → ℕ) (sp : String) (sIsW : Bool) (splits : List String)
    (hcs : 1 ≤ cs) (hspw : sIsW = false → sp.length = 1)
    (hrec : ∀ t out, rec t = some out → ∀ c ∈ out, tc c ≤ cs ∨ c.length = 1) :
    ∀ (n i : ℕ), i + n = splits.length →
      ∀ (acc : List String × List ℕ),
        (∀ c ∈ acc.1, tc c ≤ cs ∨ c.length = 1) →
      ∀ res, chunkLoop rec cs tc sp sIsW splits n i acc = some res →
      ∀ c ∈ res.1, tc c ≤ cs ∨ c.length = 1 := by
  intro n
  induction n with
  | zero =>
    intro i hlen acc hacc res hres
    simp only [chunkLoop] at hres
    injection hres with he
    rw [← he]
    exact hacc
  | succ n ih =>
    intro i hlen acc hacc res hres
    simp only [chunkLoop] at hres
    cases hstep : chunkStep rec cs tc sp sIsW splits i acc with
    | none => rw [hstep] at hres; exact absurd hres (by simp)
    | some acc2 =>
      rw [hstep] at hres
      have hacc2 := chunkStep_budget rec cs tc sp sIsW splits hcs hspw hrec
        i (by omega) acc hacc acc2 hstep
      exact ih (i + 1) (by omega) acc2 hacc2 res hres

/-- The budget invariant of the exact-arithmetic model: for every input,
every budget at least 1, every pure counter and either memoization
setting, every chunk the exact-rational `chunk` returns either fits the
budget or is a single indivisible unit — a one-character string. In that
model merge-built chunks and reattached chunks are always probed against
the budget before being produced; the binary64 program breaks this
invariant when the average underflows (the C1 theorem below), so the
theorem isolates the double rounding as the sole cause of that bug. -/
theorem chunk_budget_invariant :
    ∀ (fuel cs : ℕ) (tc : String → ℕ) (m : Bool) (text : String)
      (out : List String), 1 ≤ cs → chunk fuel text cs tc m = some out →
      ∀ c ∈ out, tc c ≤ cs ∨ (cs < tc c ∧ c.length = 1) := by
  have aux : ∀ (fuel cs : ℕ) (tc : String → ℕ) (m : Bool) (depth : ℕ)
      (text : String) (out : List String), 1 ≤ cs →
      chunkRec fuel cs tc m depth text = some out →
      ∀ c ∈ out, tc c ≤ cs ∨ c.length = 1 := by
    intro fuel
    induction fuel with
    | zero =>
      intro cs tc m depth text out hcs hres
      exact absurd hres (by simp [chunkRec])
    | succ f ih =>
      intro cs tc m depth text out hcs hres
      simp only [chunkRec, memoised, ite_self] at hres
      split at hres
      · exact absurd hres (by simp)
      · rename_i acc hloop
        injection hres with he
        intro c hc
        rw [← he] at hc
        have hcmem : c ∈ acc.1 := by
          by_cases hd : depth = 0
          · rw [if_pos hd] at hc
            exact List.mem_of_mem_filter hc
          · rw [if_neg hd] at hc
            exact hc
        exact chunkLoop_budget _ cs tc (split_text text).1 (split_text text).2.1
          (split_text text).2.2 hcs (split_text_nonws_single text)
          (fun t out2 hr => ih cs tc m (depth + 1) t out2 hcs hr)
          (split_text text).2.2.length 0 (by omega) ([], []) (by simp)
          acc hloop c hcmem
  intro fuel cs tc m text out hcs hres c hc
  rcases aux fuel cs tc m 0 text out hcs hres c hc with h | h
  · exact Or.inl h
  · by_cases hfit : tc c ≤ cs
    · exact Or.inl hfit
    · exact Or.inr ⟨by omega, h⟩

/-- Witness for `chunk_budget_invariant` at a concrete input. -/
theorem chunk_budget_invariant_witness :
    1 ≤ 2 ∧ chunk 6 "aa bb" 2 (fun s => s.length) true = some ["aa", "bb"] ∧
    ∀ c ∈ (["aa", "bb"] : List String),
      (fun s => s.length) c ≤ 2 ∨ (2 < (fun s => s.length) c ∧ c.length = 1) :=
  ⟨by decide, by decide,
    chunk_budget_invariant 6 2 (fun s => s.length) true "aa bb" ["aa", "bb"]
      (by decide) (by decide)⟩

theorem strE_append (s : String) : strE ++ s = s := by
  cases s with
  | mk d => rfl

theorem append_strE (s : String) : s ++ strE = s := by
  cases s with
  | mk d =>
    show String.mk (d ++ []) = String.mk d
    rw [List.append_nil]

theorem concatS_append (a b : List String) :
    concatS (a ++ b) = concatS a ++ concatS b := by
  induction a with
  | nil => rw [List.nil_append, concatS, strE_append]
  | cons x xs ih =>
    rw [List.cons_append, concatS, concatS, ih, String.append_assoc]

theorem concatS_single (x : String) : concatS [x] = x := by
  rw [concatS, concatS, append_strE]

theorem concat_reattach (l : List String) (last s : String)
    (h : l.getLast? = some last) :
    concatS (l.dropLast ++ [last ++ s]) = concatS l ++ s := by
  have hne : l ≠ [] := by
    intro he
    rw [he] at h
    simp at h
  have hg : l.getLast hne = last := by
    rw [List.getLast?_eq_getLast l hne] at h
    exact Option.some_injective _ h
  have hl : l.dropLast ++ [last] = l := by
    rw [← hg]
    exact List.dropLast_append_getLast hne
  conv_rhs => rw [← hl]
  rw [concatS_append, concatS_append, concatS_single, concatS_single,
    String.append_assoc]

theorem joinS_empty_cons (a : String) (l : List String) :
    joinS strE (a :: l) = a ++ joinS strE l := by
  cases l with
  | nil => rw [joinS_single, joinS_nil, append_strE]
  | cons y ys =>
    rw [joinS_cons _ _ _ (by simp), append_strE]

theorem joinS_empty_split (l : List String) (f : ℕ) :
    joinS strE l = joinS strE (l.take f) ++ joinS strE (l.drop f) := by
  induction l generalizing f with
  | nil => simp [joinS_nil, strE_append]
  | cons a t ih =>
    cases f with
    | zero => rw [List.take_zero, List.drop_zero, joinS_nil, strE_append]
    | succ g =>
      rw [List.take_succ_cons, List.drop_succ_cons, joinS_empty_cons,
        joinS_empty_cons, ih g, String.append_assoc]

theorem joinS_split (sp : String) (l : List String) (f : ℕ) (h1 : 1 ≤ f)
    (h2 : f < l.length) :
    joinS sp l = joinS sp (l.take f) ++ sp ++ joinS sp (l.drop f) := by
  induction l generalizing f with
  | nil => simp at h2
  | cons a t ih =>
    cases f with
    | zero => omega
    | succ g =>
      cases g with
      | zero =>
        have htne : t ≠ [] := by
          intro he
          rw [he] at h2
          simp at h2
        rw [joinS_cons _ _ _ htne]
        rw [List.take_succ_cons, List.take_zero, List.drop_succ_cons,
          List.drop_zero, joinS_single]
      | succ g2 =>
        have hg : 1 ≤ g2 + 1 := by omega
        have hl : g2 + 1 < t.length := by
          simp only [List.length_cons] at h2
          omega
        have htne : t ≠ [] := by
          intro he
          rw [he] at hl
          simp at hl
        have htake_ne : t.take (g2 + 1) ≠ [] := by
          intro he
          have := congrArg List.length he
          simp only [List.length_take, List.length_nil] at this
          omega
        rw [List.take_succ_cons, List.drop_succ_cons]
        rw [joinS_cons _ _ _ htne, joinS_cons _ _ _ htake_ne]
        rw [ih (g2 + 1) hg hl]
        simp only [String.append_assoc]

theorem seqSub_weaken (l : List String) (x : String) :
    ∀ (r : String), SeqSub l r → SeqSub l (x ++ r) := by
  intro r h
  cases l with
  | nil => trivial
  | cons c rest =>
    rcases h with ⟨p, r2, heq, hrest⟩
    exact ⟨x ++ p, r2, by rw [heq]; simp only [String.append_assoc], hrest⟩

theorem seqSub_glue : ∀ (a b : List String) (t1 t2 : String),
    SeqSub a t1 → SeqSub b t2 → SeqSub (a ++ b) (t1 ++ t2) := by
  intro a
  induction a with
  | nil =>
    intro b t1 t2 _ hb
    rw [List.nil_append]
    exact seqSub_weaken b t1 t2 hb
  | cons c rest ih =>
    intro b t1 t2 ha hb
    rcases ha with ⟨p, r, heq, hrest⟩
    refine ⟨p, r ++ t2, ?_, ih b r t2 hrest hb⟩
    rw [heq]
    simp only [String.append_assoc]

theorem seqSub_of_concat (l : List String) : SeqSub l (concatS l) := by
  induction l with
  | nil => trivial
  | cons c rest ih =>
    exact ⟨strE, concatS rest, by rw [concatS, strE_append], ih⟩

theorem seqSub_filter (p : String → Bool) :
    ∀ (l : List String) (t : String), SeqSub l t → SeqSub (l.filter p) t := by
  intro l
  induction l with
  | nil => intro t _; trivial
  | cons c rest ih =>
    intro t h
    rcases h with ⟨pre, r, heq, hrest⟩
    by_cases hp : p c = true
    · rw [List.filter_cons_of_pos hp]
      exact ⟨pre, r, heq, ih r hrest⟩
    · rw [List.filter_cons_of_neg (by simpa using hp)]
      have := ih r hrest
      rw [heq]
      rw [show pre ++ c ++ r = (pre ++ c) ++ r from by rw [String.append_assoc]]
      exact seqSub_weaken _ _ _ this

theorem seqSub_infix : ∀ (l : List String) (t : String), SeqSub l t →
    ∀ c ∈ l, c.data <:+: t.data := by
  intro l
  induction l with
  | nil => intro t _ c hc; simp at hc
  | cons x rest ih =>
    intro t h c hc
    rcases h with ⟨p, r, heq, hrest⟩
    rcases List.mem_cons.mp hc with h1 | h2
    · subst h1
      rw [heq, String.data_append, String.data_append]
      exact List.infix_append p.data c.data r.data
    · have hin := ih r hrest c h2
      have hsuf : r.data <:+ t.data := by
        rw [heq, String.data_append]
        exact List.suffix_append _ _
      exact hin.trans hsuf.isInfix

theorem nlRun_ws (c : Char) (h : nlRun c = true) : pyWhitespace c = true := by
  simp only [nlRun, Bool.or_eq_true, beq_iff_eq] at h
  rcases h with h | h <;> subst h <;> decide

theorem tabRun_ws (c : Char) (h : tabRun c = true) : pyWhitespace c = true := by
  simp only [tabRun, beq_iff_eq] at h
  subst h
  decide

theorem chars_of_joinS (sp : String) : ∀ (l : List String) (piece : String),
    piece ∈ l → ∀ ch ∈ piece.data, ch ∈ (joinS sp l).data := by
  intro l
  induction l with
  | nil => intro piece h; simp at h
  | cons x rest ih =>
    intro piece hmem ch hch
    cases rest with
    | nil =>
      have hpx : piece = x := by simpa using hmem
      subst hpx
      rwa [joinS_single]
    | cons y ys =>
      rw [joinS_cons _ _ _ (by simp)]
      rw [String.data_append, String.data_append]
      rcases List.mem_cons.mp hmem with h1 | h2
      · subst h1
        exact List.mem_append_left _ (List.mem_append_left _ hch)
      · exact List.mem_append_right _ (ih piece h2 ch hch)

theorem split_text_nows_shape (t : String)
    (hnows : ∀ ch ∈ t.toList, pyWhitespace ch = false) :
    (split_text t).2.1 = false ∨ (split_text t).1 = strE := by
  have h1 : ¬ t.toList.any nlRun = true := by
    intro hc
    obtain ⟨c, hcmem, hcp⟩ := List.any_eq_true.mp hc
    have := nlRun_ws c hcp
    rw [hnows c hcmem] at this
    exact absurd this (by simp)
  have h2 : ¬ t.toList.any tabRun = true := by
    intro hc
    obtain ⟨c, hcmem, hcp⟩ := List.any_eq_true.mp hc
    have := tabRun_ws c hcp
    rw [hnows c hcmem] at this
    exact absurd this (by simp)
  have h3 : ¬ t.toList.any pyWhitespace = true := by
    intro hc
    obtain ⟨c, hcmem, hcp⟩ := List.any_eq_true.mp hc
    rw [hnows c hcmem] at hcp
    exact absurd hcp (by simp)
  simp only [split_text]
  rw [if_neg h1, if_neg h2, if_neg h3]
  cases hf : NON_WHITESPACE_SEMANTIC_SPLITTERS.find?
      (fun c => t.toList.contains c) with
  | some c => left; rfl
  | none => right; rfl

theorem split_text_nonws_nows (t : String) (h : (split_text t).2.1 = false) :
    ∀ ch ∈ t.toList, pyWhitespace ch = false := by
  intro ch hch
  by_contra hw
  have hw2 : pyWhitespace ch = true := by
    revert hw
    cases pyWhitespace ch <;> simp
  simp only [split_text] at h
  by_cases h1 : t.toList.any nlRun = true
  · rw [if_pos h1] at h; exact absurd h (by simp)
  · rw [if_neg h1] at h
    by_cases h2 : t.toList.any tabRun = true
    · rw [if_pos h2] at h; exact absurd h (by simp)
    · rw [if_neg h2] at h
      have h3 : t.toList.any pyWhitespace = true :=
        List.any_eq_true.mpr ⟨ch, hch, hw2⟩
      rw [if_pos h3] at h
      exact absurd h (by simp)

theorem split_text_piece_chars (t : String) (piece : String)
    (hmem : piece ∈ (split_text t).2.2) :
    ∀ ch ∈ piece.data, ch ∈ t.data := by
  intro ch hch
  have hrt := split_text_round_trip t
  have hin := chars_of_joinS (split_text t).1 (split_text t).2.2 piece hmem ch hch
  rw [hrt] at hin
  exact hin

theorem seqSub_single (x : String) : SeqSub [x] x :=
  ⟨strE, strE, by rw [strE_append, append_strE], trivial⟩

theorem seqSub_append_right (l : List String) (x : String) :
    ∀ (t : String), SeqSub l t → SeqSub l (t ++ x) := by
  induction l with
  | nil => intro t _; trivial
  | cons c rest ih =>
    intro t h
    rcases h with ⟨p, r, heq, hrest⟩
    exact ⟨p, r ++ x, by rw [heq]; simp only [String.append_assoc],
      ih r hrest⟩

theorem concatS_filter (l : List String) :
    concatS (l.filter (fun c => !(c == strE))) = concatS l := by
  induction l with
  | nil => rfl
  | cons x xs ih =>
    rw [List.filter_cons]
    by_cases hx : (!(x == strE)) = true
    · rw [if_pos hx, concatS, concatS, ih]
    · have hxe : x = strE := by
        revert hx
        cases hb : x == strE
        · intro hc; exact absurd rfl hc
        · intro _; exact eq_of_beq hb
      rw [if_neg hx, concatS, ih, hxe, strE_append]

theorem drop_cons_getD (splits : List String) (i : ℕ) (hi : i < splits.length) :
    splits.drop i = splits.getD i strE :: splits.drop (i + 1) := by
  rw [List.drop_eq_getElem_cons hi, List.getD_eq_getElem _ _ hi]

theorem chunkStepA (rec : String → Option (List String)) (cs : ℕ)
    (tc : String → ℕ) (sp : String) (sIsW : Bool) (splits : List String)
    (hcs : 1 ≤ cs) (hwsp : sIsW = true → sp = strE)
    (hrec : ∀ t ∈ splits, ∀ out, rec t = some out → concatS out = t)
    (i j : ℕ) (hij : j ≤ i) (hi : i < splits.length)
    (acc : List String × List ℕ) (hsub : ∀ t ∈ acc.2, t < j)
    (acc3 : List String × List ℕ)
    (hstep : chunkStep rec cs tc sp sIsW splits i acc = some acc3) :
    ∃ j2, i < j2 ∧ (∀ t ∈ acc3.2, t < j2) ∧
      (∀ t, i + 1 ≤ t → t < j2 → t ∈ acc3.2) ∧
      concatS acc3.1 ++ joinS sp (splits.drop (max (i + 1) j2)) =
        concatS acc.1 ++ joinS sp (splits.drop i) := by
  have hskip : ¬ acc.2.contains i = true := by
    intro hc
    have hmem : i ∈ acc.2 := by simpa using hc
    have := hsub i hmem
    omega
  simp only [chunkStep] at hstep
  rw [if_neg hskip] at hstep
  split at hstep
  · exact absurd hstep (by simp)
  · rename_i accm hmerged
    by_cases hbig : cs < tc (splits.getD i strE)
    · -- oversized split: recursive call replaces it
      rw [if_pos hbig] at hmerged
      cases hr : rec (splits.getD i strE) with
      | none => rw [hr] at hmerged; exact absurd hmerged (by simp)
      | some sub =>
        rw [hr] at hmerged
        injection hmerged with he
        have haccm1 : accm.1 = acc.1 ++ sub := by rw [← he]
        have haccm2 : accm.2 = acc.2 := by rw [← he]
        have hgmem : splits.getD i strE ∈ splits := by
          rw [List.getD_eq_getElem _ _ hi]
          exact List.getElem_mem hi
        have hcsub : concatS sub = splits.getD i strE := hrec _ hgmem sub hr
        cases hsw : sIsW with
        | true =>
          have hspE := hwsp hsw
          rw [hsw] at hstep
          rw [if_neg (by simp)] at hstep
          injection hstep with he3
          refine ⟨i + 1, by omega, ?_, ?_, ?_⟩
          · intro t ht
            rw [← he3, haccm2] at ht
            have := hsub t ht
            omega
          · intro t h1 h2
            omega
          · rw [← he3, haccm1, concatS_append, hcsub]
            have hmax : max (i + 1) (i + 1) = i + 1 := by omega
            rw [hmax, drop_cons_getD splits i hi, hspE, joinS_empty_cons]
            simp only [String.append_assoc]
        | false =>
          rw [hsw] at hstep
          by_cases hlast : i = splits.length - 1
          · rw [if_neg (by intro hcon; exact hcon.2 (Or.inl hlast))] at hstep
            injection hstep with he3
            refine ⟨i + 1, by omega, ?_, ?_, ?_⟩
            · intro t ht
              rw [← he3, haccm2] at ht
              have := hsub t ht
              omega
            · intro t h1 h2
              omega
            · rw [← he3, haccm1, concatS_append, hcsub]
              have hmax : max (i + 1) (i + 1) = i + 1 := by omega
              have hd1 : splits.drop (i + 1) = [] :=
                List.drop_eq_nil_of_le (by omega)
              rw [hmax, drop_cons_getD splits i hi, hd1, joinS_single,
                joinS_nil, append_strE]
          · have hcond : (false = false ∧
                ¬(i = splits.length - 1 ∨
                  (List.range' (i + 1) (splits.length - (i + 1))).all
                    (fun j => accm.2.contains j) = true)) := by
              refine ⟨rfl, ?_⟩
              intro hor
              rcases hor with h | h
              · exact hlast h
              · have hmem : splits.length - 1 ∈
                    List.range' (i + 1) (splits.length - (i + 1)) := by
                  rw [List.mem_range'_1]
                  omega
                have hx := List.all_eq_true.mp h _ hmem
                have hmem2 : splits.length - 1 ∈ accm.2 := by simpa using hx
                rw [haccm2] at hmem2
                have := hsub _ hmem2
                omega
            rw [if_pos hcond] at hstep
            split at hstep
            · exact absurd hstep (by simp)
            · rename_i last hlast2
              have hkey : concatS acc3.1 = concatS accm.1 ++ sp ∧
                  acc3.2 = accm.2 := by
                by_cases hfit : tc (last ++ sp) ≤ cs
                · rw [if_pos hfit] at hstep
                  injection hstep with he3
                  refine ⟨?_, by rw [← he3]⟩
                  rw [← he3]
                  exact concat_reattach accm.1 last sp hlast2
                · rw [if_neg hfit] at hstep
                  injection hstep with he3
                  exact ⟨by rw [← he3, concatS_append, concatS_single],
                    by rw [← he3]⟩
              refine ⟨i + 1, by omega, ?_, ?_, ?_⟩
              · intro t ht
                rw [hkey.2, haccm2] at ht
                have := hsub t ht
                omega
              · intro t h1 h2
                omega
              · rw [hkey.1, haccm1, concatS_append, hcsub]
                have hmax : max (i + 1) (i + 1) = i + 1 := by omega
                have hne : splits.drop (i + 1) ≠ [] := by
                  intro hn
                  have := congrArg List.length hn
                  simp only [List.length_drop, List.length_nil] at this
                  omega
                rw [hmax, drop_cons_getD splits i hi, joinS_cons _ _ _ hne]
                simp only [String.append_assoc]
    · -- split fits: merge_splits builds the next chunk
      rw [if_neg hbig] at hmerged
      cases hmg : merge_splits (splits.drop i) cs sp tc with
      | none => rw [hmg] at hmerged; exact absurd hmerged (by simp)
      | some p =>
        rcases p with ⟨fin, nc⟩
        rw [hmg] at hmerged
        injection hmerged with he
        have haccm1 : accm.1 = acc.1 ++ [nc] := by rw [← he]
        have haccm2 : accm.2 = acc.2 ++ List.range' (i + 1) (fin - 1).toNat := by
          rw [← he]
        have hdl : 1 ≤ (splits.drop i).length := by
          rw [List.length_drop]
          omega
        have hhead : tc (joinS sp ((splits.drop i).take 1)) ≤ cs := by
          rw [drop_head_getD splits i hi, joinS_single]
          omega
        rcases merge_splits_ctx (splits.drop i) cs sp tc hcs hdl hhead fin nc hmg
          with ⟨hfin1, hfinle, hnc, hfit2⟩
        rw [List.length_drop] at hfinle
        have hk1 : 1 ≤ fin.toNat := by omega
        have hsk1 : ∀ t ∈ accm.2, t < i + fin.toNat := by
          intro t ht
          rw [haccm2] at ht
          rcases List.mem_append.mp ht with h | h
          · have := hsub t h
            omega
          · rw [List.mem_range'_1] at h
            omega
        have hsk2 : ∀ t, i + 1 ≤ t → t < i + fin.toNat → t ∈ accm.2 := by
          intro t h1 h2
          rw [haccm2]
          refine List.mem_append_right _ ?_
          rw [List.mem_range'_1]
          omega
        have hdd : splits.drop (i + fin.toNat) =
            (splits.drop i).drop fin.toNat :=
          (List.drop_drop fin.toNat i splits).symm
        cases hsw : sIsW with
        | true =>
          have hspE := hwsp hsw
          rw [hsw] at hstep
          rw [if_neg (by simp)] at hstep
          injection hstep with he3
          refine ⟨i + fin.toNat, by omega, ?_, ?_, ?_⟩
          · intro t ht
            rw [← he3] at ht
            exact hsk1 t ht
          · intro t h1 h2
            rw [← he3]
            exact hsk2 t h1 h2
          · rw [← he3, haccm1, concatS_append, concatS_single]
            have hmax : max (i + 1) (i + fin.toNat) = i + fin.toNat := by omega
            rw [hmax, hnc, hspE, hdd]
            simp only [String.append_assoc]
            rw [← joinS_empty_split]
        | false =>
          rw [hsw] at hstep
          by_cases hend : splits.length ≤ i + fin.toNat
          · have hall : (List.range' (i + 1) (splits.length - (i + 1))).all
                (fun j => accm.2.contains j) = true := by
              rw [List.all_eq_true]
              intro x hx
              rw [List.mem_range'_1] at hx
              have hxm : x ∈ accm.2 := hsk2 x (by omega) (by omega)
              simpa using hxm
            rw [if_neg (by intro hcon; exact hcon.2 (Or.inr hall))] at hstep
            injection hstep with he3
            refine ⟨i + fin.toNat, by omega, ?_, ?_, ?_⟩
            · intro t ht
              rw [← he3] at ht
              exact hsk1 t ht
            · intro t h1 h2
              rw [← he3]
              exact hsk2 t h1 h2
            · rw [← he3, haccm1, concatS_append, concatS_single]
              have hdrop2 : splits.drop (max (i + 1) (i + fin.toNat)) = [] :=
                List.drop_eq_nil_of_le (by omega)
              have htake : (splits.drop i).take fin.toNat = splits.drop i :=
                List.take_of_length_le (by rw [List.length_drop]; omega)
              rw [hdrop2, joinS_nil, append_strE, hnc, htake]
          · have hcond : (false = false ∧
                ¬(i = splits.length - 1 ∨
                  (List.range' (i + 1) (splits.length - (i + 1))).all
                    (fun j => accm.2.contains j) = true)) := by
              refine ⟨rfl, ?_⟩
              intro hor
              rcases hor with h | h
              · omega
              · have hmem : splits.length - 1 ∈
                    List.range' (i + 1) (splits.length - (i + 1)) := by
                  rw [List.mem_range'_1]
                  omega
                have hx := List.all_eq_true.mp h _ hmem
                have hmem2 : splits.length - 1 ∈ accm.2 := by simpa using hx
                have := hsk1 _ hmem2
                omega
            rw [if_pos hcond] at hstep
            have hglast : accm.1.getLast? = some nc := by
              rw [haccm1]
              exact List.getLast?_concat acc.1
            split at hstep
            · rename_i hnone
              rw [hglast] at hnone
              exact absurd hnone (by simp)
            · rename_i last hlast2
              have hkey : concatS acc3.1 = concatS accm.1 ++ sp ∧
                  acc3.2 = accm.2 := by
                by_cases hfit : tc (last ++ sp) ≤ cs
                · rw [if_pos hfit] at hstep
                  injection hstep with he3
                  refine ⟨?_, by rw [← he3]⟩
                  rw [← he3]
                  exact concat_reattach accm.1 last sp hlast2
                · rw [if_neg hfit] at hstep
                  injection hstep with he3
                  exact ⟨by rw [← he3, concatS_append, concatS_single],
                    by rw [← he3]⟩
              refine ⟨i + fin.toNat, by omega, ?_, ?_, ?_⟩
              · intro t ht
                rw [hkey.2] at ht
                exact hsk1 t ht
              · intro t h1 h2
                rw [hkey.2]
                exact hsk2 t h1 h2
              · rw [hkey.1, haccm1, concatS_append, concatS_single]
                have hmax : max (i + 1) (i + fin.toNat) = i + fin.toNat := by
                  omega
                have hjs := joinS_split sp (splits.drop i) fin.toNat hk1
                  (by rw [List.length_drop]; omega)
                rw [hmax, hnc, hdd, hjs]
                simp only [String.append_assoc]

theorem chunkLoopA (rec : String → Option (List String)) (cs : ℕ)
    (tc : String → ℕ) (sp : String) (sIsW : Bool) (splits : List String)
    (hcs : 1 ≤ cs) (hwsp : sIsW = true → sp = strE)
    (hrec : ∀ t ∈ splits, ∀ out, rec t = some out → concatS out = t) :
    ∀ (n i j : ℕ), i + n = splits.length →
      ∀ (acc : List String × List ℕ),
        (∀ t ∈ acc.2, t < j) → (∀ t, i ≤ t → t < j → t ∈ acc.2) →
      ∀ res, chunkLoop rec cs tc sp sIsW splits n i acc = some res →
      concatS res.1 = concatS acc.1 ++ joinS sp (splits.drop (max i j)) := by
  intro n
  induction n with
  | zero =>
    intro i j hlen acc _ _ res hres
    simp only [chunkLoop] at hres
    injection hres with he
    have hd : splits.drop (max i j) = [] :=
      List.drop_eq_nil_of_le (by omega)
    rw [← he, hd, joinS_nil, append_strE]
  | succ n ih =>
    intro i j hlen acc hs1 hs2 res hres
    simp only [chunkLoop] at hres
    cases hstep : chunkStep rec cs tc sp sIsW splits i acc with
    | none => rw [hstep] at hres; exact absurd hres (by simp)
    | some acc2 =>
      rw [hstep] at hres
      by_cases hij : i < j
      · have hc : acc.2.contains i = true := by
          simpa using hs2 i (le_refl i) hij
        have hacc2 : acc2 = acc := by
          simp only [chunkStep] at hstep
          rw [if_pos hc] at hstep
          exact (Option.some_injective _ hstep).symm
        rw [hacc2] at hres
        have hr2 := ih (i + 1) j (by omega) acc hs1
          (fun t h1 h2 => hs2 t (by omega) h2) res hres
        have hm : max (i + 1) j = max i j := by omega
        rw [hm] at hr2
        exact hr2
      · have hj : j ≤ i := by omega
        have hi : i < splits.length := by omega
        rcases chunkStepA rec cs tc sp sIsW splits hcs hwsp hrec i j hj hi acc
          hs1 acc2 hstep with ⟨j2, hij2, hinv1, hinv2, heq⟩
        have hrest := ih (i + 1) j2 (by omega) acc2 hinv1 hinv2 res hres
        rw [hrest, heq]
        have hm : max i j = i := by omega
        rw [hm]

theorem chunkRec_nows_concat : ∀ (fuel cs : ℕ) (tc : String → ℕ) (m : Bool)
    (depth : ℕ) (text : String) (out : List String), 1 ≤ cs →
    (∀ ch ∈ text.toList, pyWhitespace ch = false) →
    chunkRec fuel cs tc m depth text = some out →
    concatS out = text := by
  intro fuel
  induction fuel with
  | zero =>
    intro cs tc m depth text out hcs hnows hres
    exact absurd hres (by simp [chunkRec])
  | succ f ih =>
    intro cs tc m depth text out hcs hnows hres
    simp only [chunkRec, memoised, ite_self] at hres
    split at hres
    · exact absurd hres (by simp)
    · rename_i acc hloop
      injection hres with he
      have hwsp : (split_text text).2.1 = true →
          (split_text text).1 = strE := by
        intro h
        rcases split_text_nows_shape text hnows with h2 | h2
        · rw [h] at h2
          exact absurd h2 (by simp)
        · exact h2
      have hA := chunkLoopA _ cs tc
        (split_text text).1 (split_text text).2.1 (split_text text).2.2
        hcs hwsp
        (fun t ht out2 hr => ih cs tc m (depth + 1) t out2 hcs
          (fun ch hch => hnows ch (split_text_piece_chars text t ht ch hch)) hr)
        (split_text text).2.2.length 0 0 (by omega) ([], [])
        (by simp) (by intro t h1 h2; omega) acc hloop
      rw [show max 0 0 = 0 from rfl, List.drop_zero,
        show concatS ([] : List String) = strE from rfl, strE_append,
        split_text_round_trip text] at hA
      rw [← he]
      by_cases hd : depth = 0
      · rw [if_pos hd, concatS_filter, hA]
      · rw [if_neg hd, hA]

theorem chunkStepB (rec : String → Option (List String)) (cs : ℕ)
    (tc : String → ℕ) (sp : String) (splits : List String) (hcs : 1 ≤ cs)
    (hrec : ∀ t out, rec t = some out → SeqSub out t)
    (i j : ℕ) (hij : j ≤ i) (hi : i < splits.length)
    (acc : List String × List ℕ) (hsub : ∀ t ∈ acc.2, t < j)
    (acc3 : List String × List ℕ)
    (hstep : chunkStep rec cs tc sp true splits i acc = some acc3) :
    ∃ j2 new cov, i < j2 ∧ (∀ t ∈ acc3.2, t < j2) ∧
      (∀ t, i + 1 ≤ t → t < j2 → t ∈ acc3.2) ∧
      acc3.1 = acc.1 ++ new ∧
      joinS sp (splits.drop i) =
        cov ++ joinS sp (splits.drop (max (i + 1) j2)) ∧
      SeqSub new cov := by
  have hskip : ¬ acc.2.contains i = true := by
    intro hc
    have hmem : i ∈ acc.2 := by simpa using hc
    have := hsub i hmem
    omega
  simp only [chunkStep] at hstep
  rw [if_neg hskip] at hstep
  split at hstep
  · exact absurd hstep (by simp)
  · rename_i accm hmerged
    rw [if_neg (by simp)] at hstep
    injection hstep with he3
    by_cases hbig : cs < tc (splits.getD i strE)
    · rw [if_pos hbig] at hmerged
      cases hr : rec (splits.getD i strE) with
      | none => rw [hr] at hmerged; exact absurd hmerged (by simp)
      | some sub =>
        rw [hr] at hmerged
        injection hmerged with he
        have haccm1 : accm.1 = acc.1 ++ sub := by rw [← he]
        have haccm2 : accm.2 = acc.2 := by rw [← he]
        have hss : SeqSub sub (splits.getD i strE) := hrec _ sub hr
        by_cases hlast : splits.length ≤ i + 1
        · refine ⟨i + 1, sub, splits.getD i strE, by omega, ?_, ?_, ?_, ?_,
            hss⟩
          · intro t ht
            rw [← he3, haccm2] at ht
            have := hsub t ht
            omega
          · intro t h1 h2
            omega
          · rw [← he3, haccm1]
          · have hd1 : splits.drop (i + 1) = [] :=
              List.drop_eq_nil_of_le (by omega)
            have hmax : max (i + 1) (i + 1) = i + 1 := by omega
            rw [hmax, drop_cons_getD splits i hi, hd1, joinS_single,
              joinS_nil, append_strE]
        · refine ⟨i + 1, sub, splits.getD i strE ++ sp, by omega, ?_, ?_, ?_,
            ?_, ?_⟩
          · intro t ht
            rw [← he3, haccm2] at ht
            have := hsub t ht
            omega
          · intro t h1 h2
            omega
          · rw [← he3, haccm1]
          · have hne : splits.drop (i + 1) ≠ [] := by
              intro hn
              have := congrArg List.length hn
              simp only [List.length_drop, List.length_nil] at this
              omega
            have hmax : max (i + 1) (i + 1) = i + 1 := by omega
            rw [hmax, drop_cons_getD splits i hi, joinS_cons _ _ _ hne]
          · exact seqSub_append_right sub sp _ hss
    · rw [if_neg hbig] at hmerged
      cases hmg : merge_splits (splits.drop i) cs sp tc with
      | none => rw [hmg] at hmerged; exact absurd hmerged (by simp)
      | some p =>
        rcases p with ⟨fin, nc⟩
        rw [hmg] at hmerged
        injection hmerged with he
        have haccm1 : accm.1 = acc.1 ++ [nc] := by rw [← he]
        have haccm2 : accm.2 = acc.2 ++ List.range' (i + 1) (fin - 1).toNat := by
          rw [← he]
        have hdl : 1 ≤ (splits.drop i).length := by
          rw [List.length_drop]
          omega
        have hhead : tc (joinS sp ((splits.drop i).take 1)) ≤ cs := by
          rw [drop_head_getD splits i hi, joinS_single]
          omega
        rcases merge_splits_ctx (splits.drop i) cs sp tc hcs hdl hhead fin nc hmg
          with ⟨hfin1, hfinle, hnc, hfit2⟩
        rw [List.length_drop] at hfinle
        have hk1 : 1 ≤ fin.toNat := by omega
        have hsk1 : ∀ t ∈ accm.2, t < i + fin.toNat := by
          intro t ht
          rw [haccm2] at ht
          rcases List.mem_append.mp ht with h | h
          · have := hsub t h
            omega
          · rw [List.mem_range'_1] at h
            omega
        have hsk2 : ∀ t, i + 1 ≤ t → t < i + fin.toNat → t ∈ accm.2 := by
          intro t h1 h2
          rw [haccm2]
          refine List.mem_append_right _ ?_
          rw [List.mem_range'_1]
          omega
        have hdd : splits.drop (i + fin.toNat) =
            (splits.drop i).drop fin.toNat :=
          (List.drop_drop fin.toNat i splits).symm
        by_cases hend : splits.length ≤ i + fin.toNat
        · refine ⟨i + fin.toNat, [nc], nc, by omega, ?_, ?_, ?_, ?_,
            seqSub_single nc⟩
          · intro t ht
            rw [← he3] at ht
            exact hsk1 t ht
          · intro t h1 h2
            rw [← he3]
            exact hsk2 t h1 h2
          · rw [← he3, haccm1]
          · have hdrop2 : splits.drop (max (i + 1) (i + fin.toNat)) = [] :=
              List.drop_eq_nil_of_le (by omega)
            have htake : (splits.drop i).take fin.toNat = splits.drop i :=
              List.take_of_length_le (by rw [List.length_drop]; omega)
            rw [hdrop2, joinS_nil, append_strE, hnc, htake]
        · refine ⟨i + fin.toNat, [nc], nc ++ sp, by omega, ?_, ?_, ?_, ?_, ?_⟩
          · intro t ht
            rw [← he3] at ht
            exact hsk1 t ht
          · intro t h1 h2
            rw [← he3]
            exact hsk2 t h1 h2
          · rw [← he3, haccm1]
          · have hmax : max (i + 1) (i + fin.toNat) = i + fin.toNat := by omega
            have hjs := joinS_split sp (splits.drop i) fin.toNat hk1
              (by rw [List.length_drop]; omega)
            rw [hmax, hdd, hjs, hnc]
          · exact seqSub_append_right [nc] sp nc (seqSub_single nc)

theorem chunkLoopB (rec : String → Option (List String)) (cs : ℕ)
    (tc : String → ℕ) (sp : String) (splits : List String) (hcs : 1 ≤ cs)
    (hrec : ∀ t out, rec t = some out → SeqSub out t) :
    ∀ (n i j : ℕ), i + n = splits.length →
      ∀ (acc : List String × List ℕ),
        (∀ t ∈ acc.2, t < j) → (∀ t, i ≤ t → t < j → t ∈ acc.2) →
      ∀ res, chunkLoop rec cs tc sp true splits n i acc = some res →
      ∃ new, res.1 = acc.1 ++ new ∧
        SeqSub new (joinS sp (splits.drop (max i j))) := by
  intro n
  induction n with
  | zero =>
    intro i j hlen acc _ _ res hres
    simp only [chunkLoop] at hres
    injection hres with he
    exact ⟨[], by rw [← he, List.append_nil], trivial⟩
  | succ n ih =>
    intro i j hlen acc hs1 hs2 res hres
    simp only [chunkLoop] at hres
    cases hstep : chunkStep rec cs tc sp true splits i acc with
    | none => rw [hstep] at hres; exact absurd hres (by simp)
    | some acc2 =>
      rw [hstep] at hres
      by_cases hij : i < j
      · have hc : acc.2.contains i = true := by
          simpa using hs2 i (le_refl i) hij
        have hacc2 : acc2 = acc := by
          simp only [chunkStep] at hstep
          rw [if_pos hc] at hstep
          exact (Option.some_injective _ hstep).symm
        rw [hacc2] at hres
        rcases ih (i + 1) j (by omega) acc hs1
          (fun t h1 h2 => hs2 t (by omega) h2) res hres with ⟨new, h1, h2⟩
        have hm : max (i + 1) j = max i j := by omega
        rw [hm] at h2
        exact ⟨new, h1, h2⟩
      · have hj : j ≤ i := by omega
        have hi : i < splits.length := by omega
        rcases chunkStepB rec cs tc sp splits hcs hrec i j hj hi acc hs1
          acc2 hstep with
          ⟨j2, new1, cov, hij2, hinv1, hinv2, hacc21, hcov, hssc⟩
        rcases ih (i + 1) j2 (by omega) acc2 hinv1 hinv2 res hres with
          ⟨new2, hr1, hr2⟩
        refine ⟨new1 ++ new2, ?_, ?_⟩
        · rw [hr1, hacc21, List.append_assoc]
        · have hm : max i j = i := by omega
          rw [hm, hcov]
          exact seqSub_glue new1 new2 cov _ hssc hr2

theorem chunkRec_SeqSub : ∀ (fuel cs : ℕ) (tc : String → ℕ) (m : Bool)
    (depth : ℕ) (text : String) (out : List String), 1 ≤ cs →
    chunkRec fuel cs tc m depth text = some out → SeqSub out text := by
  intro fuel
  induction fuel with
  | zero =>
    intro cs tc m depth text out hcs hres
    exact absurd hres (by simp [chunkRec])
  | succ f ih =>
    intro cs tc m depth text out hcs hres
    by_cases hsw : (split_text text).2.1 = false
    · have hnows := split_text_nonws_nows text hsw
      have hcc := chunkRec_nows_concat (f + 1) cs tc m depth text out hcs
        hnows hres
      rw [← hcc]
      exact seqSub_of_concat out
    · have hsw2 : (split_text text).2.1 = true := by
        revert hsw
        cases (split_text text).2.1 <;> simp
      simp only [chunkRec, memoised, ite_self] at hres
      split at hres
      · exact absurd hres (by simp)
      · rename_i acc hloop
        injection hres with he
        rw [hsw2] at hloop
        rcases chunkLoopB _ cs tc (split_text text).1 (split_text text).2.2
          hcs (fun t out2 hr => ih cs tc m (depth + 1) t out2 hcs hr)
          (split_text text).2.2.length 0 0 (by omega) ([], [])
          (by simp) (by intro t h1 h2; omega) acc hloop with ⟨new, h1, h2⟩
        rw [show max 0 0 = 0 from rfl, List.drop_zero,
          split_text_round_trip text] at h2
        rw [List.nil_append] at h1
        rw [← he]
        by_cases hd : depth = 0
        · rw [if_pos hd, h1]
          exact seqSub_filter _ new text h2
        · rw [if_neg hd, h1]
          exact h2

/-- The in-order decomposition invariant of the exact-arithmetic model:
every string in the list returned by the exact-rational `chunk` is a
contiguous substring of the input text, and the chunks appear in
left-to-right order — the output is a sequence of pairwise disjoint
contiguous substrings of the text read from left to right (stated with
`chunk_size ≥ 1`). The binary64 program breaks this invariant when the
average underflows (the C6 theorem below): an unprobed merge can overrun
pieces that are then merged again into the following chunk. -/
theorem chunk_chunks_in_order (fuel cs : ℕ) (tc : String → ℕ) (m : Bool)
    (text : String) (out : List String) (hcs : 1 ≤ cs)
    (hres : chunk fuel text cs tc m = some out) :
    SeqSub out text ∧ ∀ c ∈ out, List.IsInfix c.data text.data := by
  have hss := chunkRec_SeqSub fuel cs tc m 0 text out hcs hres
  exact ⟨hss, seqSub_infix out text hss⟩

/-- Witness for `chunk_chunks_in_order` at a concrete input. -/
theorem chunk_chunks_in_order_witness :
    1 ≤ 2 ∧ chunk 3 "ab,cd" 2 (fun s => s.length) false =
      some ["ab", ",", "cd"] ∧ SeqSub ["ab", ",", "cd"] "ab,cd" :=
  ⟨by decide, by decide,
    (chunk_chunks_in_order 3 2 (fun s => s.length) false "ab,cd"
      ["ab", ",", "cd"] (by decide) (by decide)).1⟩

theorem seqSub_length_le : ∀ (l : List String) (t : String), SeqSub l t →
    (l.map String.length).sum ≤ t.length := by
  intro l
  induction l with
  | nil => intro t _; simp
  | cons c rest ih =>
    intro t h
    rcases h with ⟨p, r, heq, hrest⟩
    have hr := ih r hrest
    have hlen : t.length = p.length + c.length + r.length := by
      rw [heq]
      simp [String.length_append]
    simp only [List.map_cons, List.sum_cons]
    omega

theorem roundD_of_fifth : roundD (1 / 5) = some (3602879701896397 / 2 ^ 54) := by
  decide

theorem roundD_hundred_times_fifth :
    roundD (100 * (3602879701896397 / 2 ^ 54)) = some 20 := by decide

theorem roundD_underflows :
    roundD (3 / 10 ^ 330) = some 0 := by decide

theorem roundD_overflow_threshold :
    roundD (pow2z 1024) = none ∧
    roundD ((2 ^ 53 - 1) * pow2z 971) = some ((2 ^ 53 - 1) * pow2z 971) := by
  refine ⟨by decide, by decide⟩

theorem roundD_subnormals :
    roundD (pow2z (-1074)) = some (pow2z (-1074)) ∧
    roundD (pow2z (-1075)) = some 0 ∧
    roundD (pow2z (-1075) + pow2z (-1200)) = some (pow2z (-1074)) ∧
    roundD (1 + pow2z (-53)) = some 1 ∧
    roundD (1 + pow2z (-53) + pow2z (-105)) = some (1 + pow2z (-52)) := by
  refine ⟨by decide, by decide, by decide, by decide, by decide⟩

theorem merge_splitsF_average_underflow :
    merge_splitsF ["a", "b", "c"] 100 " " tcBig = some (-1, "a b") := by decide

theorem merge_splitsF_agrees_oversized_singleton :
    merge_splitsF ["abc"] 1 strE (fun s => s.length) = some (0, strE) ∧
    merge_splits ["abc"] 1 strE (fun s => s.length) = some (0, strE) := by
  refine ⟨by decide, by decide⟩

theorem chunkF_agrees_on_witness_inputs :
    chunkF 6 "aa bb" 2 (fun s => s.length) true = some ["aa", "bb"] ∧
    chunkF 3 "ab,cd" 2 (fun s => s.length) false = some ["ab", ",", "cd"] ∧
    merge_splitsF ["a", "b"] 1 strE (fun s => s.length) = some (1, "a") ∧
    merge_splitsF ["a", "b"] 1 strE (fun _ => 0) = none := by
  refine ⟨by decide, by decide, by decide, by decide⟩

/-- C1, refuted of the program by a run of the binary64 model: with the
pure counter `tcBig` and budget `100` on the three-word text, the first
probe underflows the average (`3 / 10 ^ 330` rounds to `0.0`), the next
probe is redirected to the empty prefix, the window collapses at
`low = 0`, and `merge_splits` returns `(-1, "a b")` without the merged
text ever being probed — so the program emits the chunk `"a b"` of 500
tokens and 3 characters against a budget of 100, violating the budget
invariant and its single-indivisible-unit exception. The exact-arithmetic
model on the same input instead returns `["a", "b c"]`, within budget. -/
theorem chunk_budget_float_violation :
    chunkF 2 "a b c" 100 tcBig false = some ["a b", "b c"] ∧
    chunk 2 "a b c" 100 tcBig false = some ["a", "b c"] ∧
    100 < tcBig "a b" ∧ ("a b" : String).length = 3 := by
  refine ⟨by decide, by decide, by decide, by decide⟩

/-- C6, refuted of the program by the same binary64 run: the chunks
`"a b"` and `"b c"` that the program returns for the five-character text
overlap on its middle character, so they are not pairwise-disjoint
contiguous substrings read left to right (their lengths sum to 6 > 5);
the in-order decomposition claimed by the spec fails. The exact-arithmetic
model satisfies it on every input. -/
theorem chunk_order_float_violation :
    chunkF 2 "a b c" 100 tcBig false = some ["a b", "b c"] ∧
    ¬ SeqSub ["a b", "b c"] "a b c" := by
  refine ⟨by decide, ?_⟩
  intro h
  exact absurd (seqSub_length_le ["a b", "b c"] "a b c" h) (by decide)
